import Mathlib

/-!
# nbwmon: sliding-window throughput histories, statistics and graph rendering

A shallow embedding of `src/nbwmon.c` and proofs about it.

Conventions of the embedding
* the target is an LP64 system with IEEE-754 doubles (x86-64 Linux or OpenBSD): `long` and
  `long long` have 64 bits, `int` has 32, `size_t` is `unsigned long`;
* a C integer is an `Int`; arithmetic that can leave the range of `long` is wrapped with
  `wrapLong` (two's complement);
* a `long *` history together with its element count is a `List Int` together with a `Nat`;
  the theorems state the relation the caller maintains between the two
  (`n = array.length`). Accesses outside the allocation are not modelled;
* an integer division by zero (undefined in C, a trap on x86-64) makes a function return
  `none`, and so does a read past the end of a constant table;
* `ecalloc` is taken to succeed and `getcounters` to deliver a reading (on failure both end
  the program through `eprintf`);
* the terminal, the windows and the text drawn on them are left out: of `printgraphw` the
  cells that receive a `'*'` are kept, of `main` the calls that change the sampler state.
-/

namespace Nbwmon

/-! ## Machine integers -/

/-- Two's-complement reduction of an integer to the range of a 64-bit `long`. -/
def wrapLong (x : Int) : Int := (x + 2 ^ 63) % 2 ^ 64 - 2 ^ 63

/-- Conversion of a `long` to `unsigned long` (`size_t`): reduction modulo `2^64`. -/
def toUnsigned (x : Int) : Int := x % 2 ^ 64

/-! ## Histories: `arrayavg`, `arraymax`, `arrayresize` -/

/-- The loop `for (i = 0; i < n; i++) sum += array[i];` of `arrayavg`, `sum` being a `long`. -/
def arraysum (array : List Int) (n : Nat) : Int :=
  (List.range n).foldl (fun sum i => wrapLong (sum + array.getD i 0)) 0

/-- The value of `n-1` for `size_t n`: unsigned subtraction, `0 - 1` wraps to `2^64 - 1`. -/
def sizePred (n : Nat) : Nat := if n = 0 then 2 ^ 64 - 1 else n - 1

/-- Embedding of `long arrayavg(long *array, size_t n)`.
`sum /= (n-1)` mixes `long sum` with `size_t n`: by the usual arithmetic conversions
`sum` is converted to `unsigned long`, the division is unsigned, and the quotient is
converted back to `long`. The result is `none` when `n-1` is zero. -/
def arrayavg (array : List Int) (n : Nat) : Option Int :=
  let sum := arraysum array n
  if sizePred n = 0 then none
  else some (wrapLong (toUnsigned sum / (sizePred n : Int)))

/-- Embedding of `long arraymax(long *array, size_t n)`. -/
def arraymax (array : List Int) (n : Nat) : Int :=
  (List.range n).foldl
    (fun max i => if array.getD i 0 > max then array.getD i 0 else max) 0

/-- Copy of `cnt` elements from `src + soff` to `dst + doff` (`memcpy`, and `memmove` when
`src` is the content of `dst` before the call); every other element of `dst` is kept. -/
def memcpy (dst : List Int) (doff : Nat) (src : List Int) (soff cnt : Nat) : List Int :=
  dst.take doff ++ (src.drop soff).take cnt ++ dst.drop (doff + cnt)

/-- Embedding of `void arrayresize(long **array, size_t newsize, size_t oldsize)`; the
result is the array `*array` points to on return. -/
def arrayresize (array : List Int) (newsize oldsize : Nat) : List Int :=
  if newsize = oldsize then array
  else
    let arraytmp := array
    let fresh := List.replicate newsize (0 : Int)
    if newsize > oldsize then
      memcpy fresh (newsize - oldsize) arraytmp 0 oldsize
    else
      memcpy fresh 0 arraytmp (oldsize - newsize) newsize

/-- The history part of the resize block of `main`:
`if (COLS != colsold) arrayresize(&ifa.rxs, COLS, colsold);`. -/
def resizeHistory (array : List Int) (colsold COLS : Nat) : List Int :=
  if COLS ≠ colsold then arrayresize array COLS colsold else array

/-- A run of resize events: the terminal reports the widths `widths` one after the other,
starting from width `colsold`; each event runs `resizeHistory`. -/
def resizeRun : List Int → Nat → List Nat → List Int
  | array, _, [] => array
  | array, colsold, COLS :: rest => resizeRun (resizeHistory array colsold COLS) COLS rest

/-! ## Doubles

The program computes the rates, the fill test of the graph and the unit scaling in `double`.
`Dbl` is IEEE-754 binary64 with round-to-nearest-even: every operation delivers the double
nearest to the exact result (no extended precision, no fused multiply-add), with gradual
underflow, overflow to infinity, signed zeros, and NaN for `0/0`, `inf/inf`, `0*inf` and
`inf-inf`. A finite value is kept as sign, mantissa and exponent and stands for
`(-1)^neg * m * 2^e`; the results of the operations have `m < 2^53` and
`-1074 ≤ e ≤ 971`, zero being `m = 0, e = 0`. The sign of a NaN is not tracked. -/

/-- A binary64 value. -/
inductive Dbl where
  | fin (neg : Bool) (m : Nat) (e : Int)
  | inf (neg : Bool)
  | nan
deriving DecidableEq, Repr

/-- Number of binary digits, by repeated halving; the first argument bounds the recursion. -/
def blenAux : Nat → Nat → Nat
  | 0, _ => 0
  | fuel + 1, n => if n = 0 then 0 else blenAux fuel (n / 2) + 1

/-- Number of binary digits of `n` (`0` for `0`). -/
def blen (n : Nat) : Nat := blenAux n n

/-- For positive `n` and `d`: the integer `l` with `2^l ≤ n/d < 2^(l+1)`. -/
def expo (n d : Nat) : Int :=
  let l : Int := (blen n : Int) - (blen d : Int)
  if d * 2 ^ l.toNat ≤ n * 2 ^ (-l).toNat then l else l - 1

/-- Integer nearest to the fraction `n/d`, ties to the even integer. -/
def rne (n d : Nat) : Nat :=
  let q := n / d
  let r := n % d
  if 2 * r < d then q else if d < 2 * r then q + 1 else if q % 2 = 0 then q else q + 1

/-- Integer nearest to `(n/d) * 2^t`, ties to even. -/
def rneScaled (n d : Nat) (t : Int) : Nat :=
  rne (n * 2 ^ t.toNat) (d * 2 ^ (-t).toNat)

/-- Mantissa and exponent of the binary64 value nearest to `(n/d) * 2^s` for `n, d > 0`, the
exponent range being unbounded above: 53 significant bits, exponent of the last place at
least `-1074` (gradual underflow). -/
def roundMag (n d : Nat) (s : Int) : Nat × Int :=
  let k := max (expo n d + s) (-1022) - 52
  (rneScaled n d (s - k), k)

/-- Rounding of `(-1)^neg * (n/d) * 2^s` to binary64: the mantissa `2^53` produced by a carry
is renormalised, a result of magnitude `2^1024` or more is an infinity, and a result that
rounds to nothing is a signed zero. -/
def Dbl.round (neg : Bool) (n d : Nat) (s : Int) : Dbl :=
  if n = 0 then .fin neg 0 0
  else
    let r := roundMag n d s
    let m := if r.1 = 2 ^ 53 then 2 ^ 52 else r.1
    let k := if r.1 = 2 ^ 53 then r.2 + 1 else r.2
    if m = 0 then .fin neg 0 0
    else if 971 < k then .inf neg
    else .fin neg m k

/-- Conversion of a C integer to `double`. -/
def Dbl.ofInt (i : Int) : Dbl := Dbl.round (decide (i < 0)) i.natAbs 1 0

/-- The operator `*` on doubles. -/
def Dbl.mul : Dbl → Dbl → Dbl
  | .fin s1 m1 e1, .fin s2 m2 e2 => Dbl.round (xor s1 s2) (m1 * m2) 1 (e1 + e2)
  | .fin s1 m1 _, .inf s2 => if m1 = 0 then .nan else .inf (xor s1 s2)
  | .inf s1, .fin s2 m2 _ => if m2 = 0 then .nan else .inf (xor s1 s2)
  | .inf s1, .inf s2 => .inf (xor s1 s2)
  | _, _ => .nan

/-- The operator `/` on doubles: a nonzero value over zero is an infinity, `0/0` is NaN. -/
def Dbl.div : Dbl → Dbl → Dbl
  | .fin s1 m1 e1, .fin s2 m2 e2 =>
    if m2 = 0 then (if m1 = 0 then .nan else .inf (xor s1 s2))
    else Dbl.round (xor s1 s2) m1 m2 (e1 - e2)
  | .fin s1 _ _, .inf s2 => .fin (xor s1 s2) 0 0
  | .inf s1, .fin s2 _ _ => .inf (xor s1 s2)
  | _, _ => .nan

/-- The signed integer `(-1)^neg * m * 2^(e - e0)`, for `e0 ≤ e`. -/
def Dbl.scaled (neg : Bool) (m : Nat) (e e0 : Int) : Int :=
  (if neg then -1 else 1) * ((m * 2 ^ (e - e0).toNat : Nat) : Int)

/-- The operator `-` on doubles. -/
def Dbl.sub : Dbl → Dbl → Dbl
  | .fin s1 m1 e1, .fin s2 m2 e2 =>
    let e0 := min e1 e2
    let d := Dbl.scaled s1 m1 e1 e0 - Dbl.scaled s2 m2 e2 e0
    if d = 0 then .fin (s1 && !s2) 0 0
    else Dbl.round (decide (d < 0)) d.natAbs 1 e0
  | .fin _ _ _, .inf s2 => .inf (!s2)
  | .inf s1, .fin _ _ _ => .inf s1
  | .inf s1, .inf s2 => if s1 = s2 then .nan else .inf s1
  | _, _ => .nan

/-- The operator `<` on doubles (false when an operand is NaN). -/
def Dbl.lt : Dbl → Dbl → Bool
  | .fin s1 m1 e1, .fin s2 m2 e2 =>
    decide (Dbl.scaled s1 m1 e1 (min e1 e2) < Dbl.scaled s2 m2 e2 (min e1 e2))
  | .fin _ _ _, .inf s2 => !s2
  | .inf s1, .fin _ _ _ => s1
  | .inf s1, .inf s2 => s1 && !s2
  | _, _ => false

/-- The operator `>=` on doubles (false when an operand is NaN). -/
def Dbl.ge : Dbl → Dbl → Bool
  | .fin s1 m1 e1, .fin s2 m2 e2 =>
    decide (Dbl.scaled s2 m2 e2 (min e1 e2) ≤ Dbl.scaled s1 m1 e1 (min e1 e2))
  | .fin _ _ _, .inf s2 => s2
  | .inf s1, .fin _ _ _ => !s1
  | .inf s1, .inf s2 => !s1 || s2
  | _, _ => false

/-- Conversion of a `double` to `long`: truncation toward zero. A value outside the range of
`long` (and an infinity or NaN) has no defined result in C; the conversion instruction of
x86-64 delivers `LONG_MIN`, which is what is returned here. -/
def Dbl.toLong : Dbl → Int
  | .fin neg m e =>
    let mag : Nat := m * 2 ^ e.toNat / 2 ^ (-e).toNat
    let t : Int := if neg then -(mag : Int) else (mag : Int)
    if -2 ^ 63 ≤ t ∧ t < 2 ^ 63 then t else -2 ^ 63
  | _ => -2 ^ 63

/-- Decimal digits of `n`, padded on the left with zeros to at least `width` characters. -/
def padDigits (width n : Nat) : String :=
  let ds := toString n
  String.mk (List.replicate (width - ds.length) '0') ++ ds

/-- Output of `printf("%.<prec>f", x)`: the exact value rounded to `prec` decimals, ties to
even. -/
def Dbl.fmtFixed (prec : Nat) : Dbl → String
  | .fin neg m e =>
    let scaledv := rneScaled (m * 10 ^ prec) 1 e
    let body := toString (scaledv / 10 ^ prec) ++
      (if prec = 0 then "" else "." ++ padDigits prec (scaledv % 10 ^ prec))
    (if neg then "-" else "") ++ body
  | .inf neg => if neg then "-inf" else "inf"
  | .nan => "nan"

/-! ## `bytestostr` -/

/-- The table `iec` of `bytestostr`. -/
def iec : List String := ["B", "KiB", "MiB", "GiB", "TiB", "PiB", "EiB", "ZiB", "YiB"]

/-- The table `si` of `bytestostr`. -/
def si : List String := ["B", "kB", "MB", "GB", "TB", "PB", "EB", "ZB", "YB"]

/-- The loop `for (i = 0; bytes >= prefix && i < 9; i++) bytes /= prefix;` started at
index `i` with `9 - i = fuel`; the result is the final `bytes` and `i`. -/
def scaleLoop (base : Dbl) : Nat → Dbl → Nat → Dbl × Nat
  | 0, bytes, i => (bytes, i)
  | fuel + 1, bytes, i =>
    if Dbl.ge bytes base then scaleLoop base fuel (Dbl.div bytes base) (i + 1)
    else (bytes, i)

/-- Embedding of `char *bytestostr(double bytes, bool siunits)`. The result is `none` when
the unit index is outside the 9-entry table (a read past the end of the array). -/
def bytestostr (bytes : Dbl) (siunits : Bool) : Option String :=
  let base := if siunits then Dbl.ofInt 1000 else Dbl.ofInt 1024
  let r := scaleLoop base 9 bytes 0
  let i := r.2
  let unit := if siunits then si[i]? else iec[i]?
  let prec := if i ≠ 0 then 2 else 0
  unit.map (fun u => Dbl.fmtFixed prec r.1 ++ " " ++ u)

/-! ## `printgraphw` -/

/-- The test `lines - 1 - array[x] / max * lines < y` of `printgraphw`; `lines - 1` is an
`int` subtraction, the rest is evaluated in `double`. -/
def fillTest (sample : Int) (max : Dbl) (lines y : Int) : Bool :=
  Dbl.lt
    (Dbl.sub (Dbl.ofInt (lines - 1))
      (Dbl.mul (Dbl.div (Dbl.ofInt sample) max) (Dbl.ofInt lines)))
    (Dbl.ofInt y)

/-- Embedding of the drawing loop of `printgraphw`: the cells `(y, x)` on which a `'*'` is
put, in drawing order. The scale legend is text, not cells of the graph, and is left out. -/
def printgraphw (array : List Int) (max : Dbl) (lines cols : Int) : List (Nat × Nat) :=
  (List.range lines.toNat).flatMap (fun y =>
    (List.range cols.toNat).filterMap (fun x =>
      if fillTest (array.getD x 0) max lines y then some (y, x) else none))

/-- Number of cells of `cells` that lie in column `x`. -/
def columnCount (cells : List (Nat × Nat)) (x : Nat) : Nat :=
  cells.countP (fun c => c.2 == x)

/-- The number of rows `min(rows, ceil(s * rows / scaleMax))` of the specification, in exact
arithmetic. -/
def exactRows (lines M s : Int) : Int :=
  min lines ⌈(s : ℚ) * (lines : ℚ) / (M : ℚ)⌉

/-! ## `getdata` and the main loop -/

/-- The fields of `struct iface` that the sampler uses. -/
structure iface where
  rx : Int
  tx : Int
  rxs : List Int
  txs : List Int
  rxavg : Int
  txavg : Int
  rxmax : Int
  txmax : Int
deriving DecidableEq, Repr

/-- The state of the sampler: the interface record, the `static long long rx, tx` of
`getdata`, and the flag `resize` set by the signal handler and by a key press. -/
structure State where
  ifa : iface
  rx : Int
  tx : Int
  resize : Bool
deriving DecidableEq, Repr

/-- The state `main` starts from: zeroed record, two zeroed histories of `COLS` samples,
zero statics, no resize pending. -/
def initState (COLS : Nat) : State :=
  { ifa := { rx := 0, tx := 0, rxs := List.replicate COLS 0, txs := List.replicate COLS 0,
             rxavg := 0, txavg := 0, rxmax := 0, txmax := 0 },
    rx := 0, tx := 0, resize := false }

/-- The expression `(ifa->rx - rx) / delay` stored into a `long`: the difference of two
`long long`, converted to `double`, divided and truncated. -/
def rate (now prev : Int) (delay : Dbl) : Int :=
  Dbl.toLong (Dbl.div (Dbl.ofInt (wrapLong (now - prev))) delay)

/-- The statements `memmove(a, a+1, sizeof(long) * (cols-1)); a[cols-1] = v;`. -/
def push (array : List Int) (cols : Nat) (v : Int) : List Int :=
  (memcpy array 0 array 1 (cols - 1)).set (cols - 1) v

/-- Embedding of `void getdata(struct iface *ifa, double delay, int cols)`. `now` is the
reading (RX, TX) that the call of `getcounters` inside the branch delivers, `base` the reading
that the call at the end delivers. The result is `none` when `arrayavg` divides by zero. -/
def getdata (s : State) (delay : Dbl) (cols : Nat) (now base : Int × Int) : Option State :=
  if s.rx ≠ 0 ∧ s.tx ≠ 0 ∧ s.resize = false then
    let rxs := push s.ifa.rxs cols (rate now.1 s.rx delay)
    let txs := push s.ifa.txs cols (rate now.2 s.tx delay)
    match arrayavg rxs cols, arrayavg txs cols with
    | some rxavg, some txavg =>
      some { ifa := { rx := now.1, tx := now.2, rxs := rxs, txs := txs,
                      rxavg := rxavg, txavg := txavg,
                      rxmax := arraymax rxs cols, txmax := arraymax txs cols },
             rx := base.1, tx := base.2, resize := s.resize }
    | _, _ => none
  else
    some { s with rx := base.1, tx := base.2 }

/-- One turn of the `while` loop of `main`, the drawing left out. `keyPressed` tells whether
`getch` returned a key (other than `q`); `COLS` is the width on entry and `COLSafter` the
width the terminal reports after `endwin(); refresh();`. -/
def loopBody (s : State) (delay : Dbl) (syncgraphmax keyPressed : Bool)
    (COLS COLSafter : Nat) (now base : Int × Int) : Option State :=
  let s1 := if keyPressed then { s with resize := true } else s
  match getdata s1 delay COLS now base with
  | none => none
  | some s2 =>
    let m := if s2.ifa.rxmax > s2.ifa.txmax then s2.ifa.rxmax else s2.ifa.txmax
    let s3 := if syncgraphmax then { s2 with ifa := { s2.ifa with rxmax := m, txmax := m } }
              else s2
    if s3.resize then
      some { s3 with
        ifa := { s3.ifa with
          rxs := resizeHistory s3.ifa.rxs COLS COLSafter,
          txs := resizeHistory s3.ifa.txs COLS COLSafter },
        resize := false }
    else some s3


/-! ## Sample inputs -/

/-- A state in the middle of a run: width 3, baseline counters 5 and 7, no resize pending. -/
def runningState : State :=
  { ifa := { rx := 5, tx := 7, rxs := [1, 2, 3], txs := [4, 5, 6],
             rxavg := 3, txavg := 7, rxmax := 3, txmax := 6 },
    rx := 5, tx := 7, resize := false }

/-- A state of width 4 with idle histories whose baseline counters are 5000 and 7. -/
def idleState : State :=
  { ifa := { rx := 5000, tx := 7, rxs := [0, 0, 0, 0], txs := [0, 0, 0, 0],
             rxavg := 0, txavg := 0, rxmax := 0, txmax := 0 },
    rx := 5000, tx := 7, resize := false }

/-- The default delay of `main`, `0.5`. -/
def halfSecond : Dbl := Dbl.div (Dbl.ofInt 1) (Dbl.ofInt 2)

/-! ## Exact values, for the proofs about doubles -/

/-- Rational value of the pair mantissa, exponent. -/
def fval (m : Nat) (e : Int) : ℚ := (m : ℚ) * (2 : ℚ) ^ e

/-- Rational value `(n/d) * 2^s` of the argument of a rounding. -/
def qval (n d : Nat) (s : Int) : ℚ := (n : ℚ) / (d : ℚ) * (2 : ℚ) ^ s

/-- The factor `-1` or `1` of a sign bit. -/
def Dbl.sgn (neg : Bool) : ℚ := if neg then -1 else 1

/-- Rational value of a double; an infinity counts as `±2^1024`, the first magnitude that is
no longer finite, and NaN as `0`. -/
def Dbl.val : Dbl → ℚ
  | .fin neg m e => Dbl.sgn neg * fval m e
  | .inf neg => Dbl.sgn neg * (2 : ℚ) ^ (1024 : Int)
  | .nan => 0

/-- A double that is neither an infinity nor NaN. -/
def Dbl.IsFin (x : Dbl) : Prop := ∃ neg m e, x = Dbl.fin neg m e

/-- Magnitude of `Dbl.round neg n d s`. -/
def rmag (n d : Nat) (s : Int) : ℚ :=
  if n = 0 then 0
  else min (fval (roundMag n d s).1 (roundMag n d s).2) ((2 : ℚ) ^ (1024 : Int))

/-- Rounding to binary64 as a function of the exact value. -/
def rnd (v : ℚ) : ℚ :=
  if v < 0 then -rmag (-v).num.natAbs (-v).den 0 else rmag v.num.natAbs v.den 0

/-- The value the left side of the fill test has for the sample `s`, the scale maximum `M`
and `lines` rows, each operation rounded. -/
def fillLevel (lines M s : Int) : ℚ :=
  rnd (((lines : ℚ) - 1) - rnd (rnd (rnd (s : ℚ) / rnd (M : ℚ)) * (lines : ℚ)))

set_option maxRecDepth 100000

/-! ## Histories: proofs -/

theorem wrapLong_of_range (x : Int) (h1 : -2 ^ 63 ≤ x) (h2 : x < 2 ^ 63) : wrapLong x = x := by
  unfold wrapLong
  omega

theorem toUnsigned_of_range (x : Int) (h1 : 0 ≤ x) (h2 : x < 2 ^ 64) : toUnsigned x = x := by
  unfold toUnsigned
  omega

theorem range_map_getD (l : List Int) :
    (List.range l.length).map (fun i => l.getD i 0) = l := by
  apply List.ext_getElem
  · simp
  · intro i h1 h2
    simp at h1
    simp [h1]

theorem foldl_range_getD {β : Type} (f : β → Int → β) (init : β) (l : List Int) :
    (List.range l.length).foldl (fun acc i => f acc (l.getD i 0)) init = l.foldl f init := by
  conv_rhs => rw [← range_map_getD l]
  rw [List.foldl_map]

theorem foldl_wrap_sum (l : List Int) : ∀ acc : Int, 0 ≤ acc → (∀ x ∈ l, 0 ≤ x) →
    acc + l.sum < 2 ^ 63 → l.foldl (fun sum x => wrapLong (sum + x)) acc = acc + l.sum := by
  induction l with
  | nil => intro acc _ _ _; simp
  | cons a t ih =>
    intro acc hacc hpos hsum
    have ha : 0 ≤ a := hpos a (by simp)
    have ht : ∀ x ∈ t, 0 ≤ x := fun x hx => hpos x (by simp [hx])
    have hts : 0 ≤ t.sum := List.sum_nonneg ht
    simp only [List.sum_cons] at hsum
    simp only [List.foldl_cons, List.sum_cons]
    rw [wrapLong_of_range (acc + a) (by omega) (by omega)]
    rw [ih (acc + a) (by omega) ht (by omega)]
    ring

theorem arraysum_eq_sum (array : List Int) (hpos : ∀ x ∈ array, 0 ≤ x)
    (hsum : array.sum < 2 ^ 63) : arraysum array array.length = array.sum := by
  unfold arraysum
  rw [foldl_range_getD (fun sum x => wrapLong (sum + x)) 0 array]
  rw [foldl_wrap_sum array 0 (le_refl 0) hpos (by simpa using hsum)]
  simp

theorem sum_of_all_eq (l : List Int) (k : Int) (h : ∀ x ∈ l, x = k) : l.sum = k * l.length := by
  induction l with
  | nil => simp
  | cons a t ih =>
    have ha : a = k := h a (by simp)
    have ht : ∀ x ∈ t, x = k := fun x hx => h x (by simp [hx])
    simp only [List.sum_cons, List.length_cons, ih ht, ha]
    push_cast
    ring

theorem arrayavg_of_nonneg (array : List Int) (h2 : 2 ≤ array.length)
    (hpos : ∀ x ∈ array, 0 ≤ x) (hsum : array.sum < 2 ^ 63) :
    arrayavg array array.length = some (array.sum / ((array.length : Int) - 1)) := by
  have hs0 : 0 ≤ array.sum := List.sum_nonneg hpos
  have hp : sizePred array.length = array.length - 1 := by
    unfold sizePred
    rw [if_neg (by omega)]
  have hpc : ((array.length - 1 : Nat) : Int) = (array.length : Int) - 1 := by omega
  have hq0 : 0 ≤ array.sum / ((array.length : Int) - 1) :=
    Int.ediv_nonneg hs0 (by omega)
  have hq1 : array.sum / ((array.length : Int) - 1) ≤ array.sum :=
    Int.ediv_le_self _ hs0
  unfold arrayavg
  simp only [arraysum_eq_sum array hpos hsum, hp]
  rw [if_neg (by omega), toUnsigned_of_range _ hs0 (by omega), hpc,
    wrapLong_of_range _ (by omega) (by omega)]

theorem foldl_max_spec (l : List Int) : ∀ acc : Int,
    (∀ x ∈ l, x ≤ l.foldl (fun max x => if x > max then x else max) acc) ∧
    acc ≤ l.foldl (fun max x => if x > max then x else max) acc ∧
    (l.foldl (fun max x => if x > max then x else max) acc = acc ∨
      l.foldl (fun max x => if x > max then x else max) acc ∈ l) := by
  induction l with
  | nil => intro acc; simp
  | cons a t ih =>
    intro acc
    simp only [List.foldl_cons, List.mem_cons]
    obtain ⟨h1, h2, h3⟩ := ih (if a > acc then a else acc)
    refine ⟨?_, ?_, ?_⟩
    · intro x hx
      rcases hx with rfl | hx
      · split_ifs at h2 ⊢ <;> omega
      · exact h1 x hx
    · split_ifs at h2 ⊢ <;> omega
    · rcases h3 with h3 | h3
      · split_ifs at h3 ⊢ with hc
        · right; left; exact h3
        · left; exact h3
      · right; right; exact h3

theorem arraymax_eq_foldl (array : List Int) :
    arraymax array array.length = array.foldl (fun max x => if x > max then x else max) 0 := by
  unfold arraymax
  exact foldl_range_getD (fun max x => if x > max then x else max) 0 array

theorem arraymax_zero_nonpos (array : List Int) (h : arraymax array array.length = 0) :
    ∀ x ∈ array, x ≤ 0 := by
  intro x hx
  rw [arraymax_eq_foldl] at h
  have hle := (foldl_max_spec array 0).1 x hx
  rw [h] at hle
  exact hle

theorem arrayresize_length (old : List Int) (newsize : Nat) :
    (arrayresize old newsize old.length).length = newsize := by
  unfold arrayresize memcpy
  split_ifs with h1 h2
  · exact h1.symm
  · simp
    omega
  · simp
    omega

theorem arrayresize_grow (old : List Int) (newsize : Nat) (h : old.length < newsize) :
    arrayresize old newsize old.length = List.replicate (newsize - old.length) 0 ++ old := by
  unfold arrayresize memcpy
  rw [if_neg (by omega), if_pos (by omega)]
  have h3 : newsize - old.length + old.length = newsize := by omega
  simp [h3, List.take_replicate]

theorem arrayresize_shrink (old : List Int) (newsize : Nat) (h : newsize < old.length) :
    arrayresize old newsize old.length = old.drop (old.length - newsize) := by
  unfold arrayresize memcpy
  rw [if_neg (by omega), if_neg (by omega)]
  have h3 : (old.drop (old.length - newsize)).length ≤ newsize := by simp; omega
  simp [List.take_of_length_le h3]

theorem resizeHistory_length (array : List Int) (COLS : Nat) :
    (resizeHistory array array.length COLS).length = COLS := by
  unfold resizeHistory
  split_ifs with h
  · exact arrayresize_length array COLS
  · push_neg at h
    exact h.symm

theorem resizeHistory_getLast (array : List Int) (COLS : Nat) (hne : array ≠ [])
    (hpos : 0 < COLS) :
    (resizeHistory array array.length COLS).getLast? = array.getLast? := by
  unfold resizeHistory
  split_ifs with h
  · rcases Nat.lt_or_gt_of_ne h with hlt | hgt
    · rw [arrayresize_shrink array COLS hlt]
      rw [List.getLast?_drop]
      rw [if_neg (by omega)]
    · rw [arrayresize_grow array COLS hgt]
      rw [List.getLast?_append_of_ne_nil _ hne]
  · rfl

theorem resizeRun_spec (widths : List Nat) : ∀ array : List Int, array ≠ [] →
    (∀ w ∈ widths, 0 < w) →
    (resizeRun array array.length widths).getLast? = array.getLast? ∧
    (resizeRun array array.length widths).length = widths.getLastD array.length := by
  induction widths with
  | nil => intro array _ _; simp [resizeRun]
  | cons w rest ih =>
    intro array hne hpos
    have hw : 0 < w := hpos w (by simp)
    have hlen := resizeHistory_length array w
    have hne2 : resizeHistory array array.length w ≠ [] := by
      intro h0
      rw [h0] at hlen
      simp at hlen
      omega
    have step := ih (resizeHistory array array.length w) hne2
      (fun x hx => hpos x (by simp [hx]))
    rw [hlen] at step
    simp only [resizeRun]
    refine ⟨?_, ?_⟩
    · rw [step.1, resizeHistory_getLast array w hne hw]
    · rw [step.2]
      cases rest with
      | nil => simp
      | cons a t =>
        simp only [List.getLastD_cons]

/-! ## Doubles: proofs -/

/-- Some known doubles: `0.1`, `1/3`, `0.5`, the ties `2^53 + 1` and `2^53 + 3` (to even),
the product `14/25 * 25` (just above 14), an overflow and an underflow. -/
theorem dbl_known_values :
    Dbl.div (Dbl.ofInt 1) (Dbl.ofInt 10) = Dbl.fin false 7205759403792794 (-56) ∧
      Dbl.div (Dbl.ofInt 1) (Dbl.ofInt 3) = Dbl.fin false 6004799503160661 (-54) ∧
      Dbl.div (Dbl.ofInt 1) (Dbl.ofInt 2) = Dbl.fin false 4503599627370496 (-53) ∧
      Dbl.ofInt (2 ^ 53 + 1) = Dbl.fin false 4503599627370496 1 ∧
      Dbl.ofInt (2 ^ 53 + 3) = Dbl.fin false 4503599627370498 1 ∧
      Dbl.mul (Dbl.div (Dbl.ofInt 14) (Dbl.ofInt 25)) (Dbl.ofInt 25) =
        Dbl.fin false 7881299347898369 (-49) ∧
      Dbl.mul (Dbl.fin false (2 ^ 52) 900) (Dbl.fin true (2 ^ 52) 100) = Dbl.inf true ∧
      Dbl.div (Dbl.fin false 1 (-1074)) (Dbl.ofInt (-4)) = Dbl.fin true 0 0 := by
  decide

theorem blenAux_zero (f : Nat) : blenAux f 0 = 0 := by
  cases f <;> simp [blenAux]

theorem blenAux_spec : ∀ (f n : Nat), n ≤ f → 0 < n →
    2 ^ (blenAux f n - 1) ≤ n ∧ n < 2 ^ blenAux f n ∧ 1 ≤ blenAux f n := by
  intro f
  induction f with
  | zero => intro n h1 h2; omega
  | succ f ih =>
    intro n hle hpos
    have hn0 : n ≠ 0 := by omega
    simp only [blenAux, if_neg hn0]
    by_cases h1 : n / 2 = 0
    · have hn1 : n = 1 := by omega
      subst hn1
      simp [blenAux_zero]
    · obtain ⟨a, b, c⟩ := ih (n / 2) (by omega) (by omega)
      obtain ⟨k, hk⟩ : ∃ k, blenAux f (n / 2) = k + 1 := ⟨blenAux f (n / 2) - 1, by omega⟩
      rw [hk] at a b ⊢
      simp only [Nat.add_sub_cancel] at a ⊢
      have e1 : 2 ^ (k + 1) = 2 * 2 ^ k := by ring
      have e2 : 2 ^ (k + 1 + 1) = 2 * 2 ^ (k + 1) := by ring
      refine ⟨?_, ?_, by omega⟩
      · omega
      · omega

theorem blen_spec (n : Nat) (hn : 0 < n) :
    2 ^ (blen n - 1) ≤ n ∧ n < 2 ^ blen n ∧ 1 ≤ blen n :=
  blenAux_spec n n (le_refl n) hn

theorem two_zpow_split (l : Int) :
    (2 : ℚ) ^ l = (2 : ℚ) ^ l.toNat / (2 : ℚ) ^ (-l).toNat := by
  have h : l = (l.toNat : Int) - ((-l).toNat : Int) := by omega
  conv_lhs => rw [h]
  rw [zpow_sub₀ (by norm_num : (2 : ℚ) ≠ 0), zpow_natCast, zpow_natCast]

theorem blen_spec_rat (n : Nat) (hn : 0 < n) :
    (2 : ℚ) ^ ((blen n : Int) - 1) ≤ (n : ℚ) ∧ (n : ℚ) < (2 : ℚ) ^ (blen n : Int) := by
  obtain ⟨a, b, c⟩ := blen_spec n hn
  have h1 : ((blen n : Int) - 1) = ((blen n - 1 : Nat) : Int) := by omega
  rw [h1, zpow_natCast, zpow_natCast]
  constructor
  · exact_mod_cast a
  · exact_mod_cast b

theorem expo_spec (n d : Nat) (hn : 0 < n) (hd : 0 < d) :
    (2 : ℚ) ^ expo n d ≤ (n : ℚ) / d ∧ (n : ℚ) / d < (2 : ℚ) ^ (expo n d + 1) := by
  obtain ⟨n1, n2⟩ := blen_spec_rat n hn
  obtain ⟨d1, d2⟩ := blen_spec_rat d hd
  have hdq : (0 : ℚ) < d := by exact_mod_cast hd
  have h2 : (0 : ℚ) < 2 := by norm_num
  have h2n : (2 : ℚ) ≠ 0 := by norm_num
  set l : Int := (blen n : Int) - (blen d : Int) with hl
  have hcond : d * 2 ^ l.toNat ≤ n * 2 ^ (-l).toNat ↔ (2 : ℚ) ^ l ≤ (n : ℚ) / d := by
    rw [two_zpow_split l, div_le_div_iff₀ (by positivity) hdq]
    constructor
    · intro h
      have h' : ((d * 2 ^ l.toNat : Nat) : ℚ) ≤ ((n * 2 ^ (-l).toNat : Nat) : ℚ) := by
        exact_mod_cast h
      push_cast at h'
      linarith
    · intro h
      have h' : ((d * 2 ^ l.toNat : Nat) : ℚ) ≤ ((n * 2 ^ (-l).toNat : Nat) : ℚ) := by
        push_cast
        linarith
      exact_mod_cast h'
  have hE : expo n d = if d * 2 ^ l.toNat ≤ n * 2 ^ (-l).toNat then l else l - 1 := rfl
  rw [hE]
  split_ifs with hc
  · refine ⟨hcond.mp hc, ?_⟩
    rw [div_lt_iff₀ hdq]
    have e1 : (2 : ℚ) ^ (l + 1) * (2 : ℚ) ^ ((blen d : Int) - 1) = (2 : ℚ) ^ (blen n : Int) := by
      rw [← zpow_add₀ h2n]
      congr 1
      omega
    calc (n : ℚ) < (2 : ℚ) ^ (blen n : Int) := n2
      _ = (2 : ℚ) ^ (l + 1) * (2 : ℚ) ^ ((blen d : Int) - 1) := e1.symm
      _ ≤ (2 : ℚ) ^ (l + 1) * d := by
        apply mul_le_mul_of_nonneg_left d1
        positivity
  · have hlt : (n : ℚ) / d < (2 : ℚ) ^ l := by
      rw [← not_le]
      exact fun h => hc (hcond.mpr h)
    refine ⟨?_, by simpa using hlt⟩
    rw [le_div_iff₀ hdq]
    have e1 : (2 : ℚ) ^ (l - 1) * (2 : ℚ) ^ (blen d : Int) = (2 : ℚ) ^ ((blen n : Int) - 1) := by
      rw [← zpow_add₀ h2n]
      congr 1
      omega
    calc (2 : ℚ) ^ (l - 1) * d ≤ (2 : ℚ) ^ (l - 1) * (2 : ℚ) ^ (blen d : Int) := by
          apply mul_le_mul_of_nonneg_left (le_of_lt d2)
          positivity
      _ = (2 : ℚ) ^ ((blen n : Int) - 1) := e1
      _ ≤ n := n1

theorem rne_ge (n d : Nat) : n / d ≤ rne n d := by
  unfold rne
  simp only
  split_ifs <;> omega

theorem rne_le (n d : Nat) : rne n d ≤ n / d + 1 := by
  unfold rne
  simp only
  split_ifs <;> omega

theorem rne_exact (z d : Nat) (hd : 0 < d) : rne (z * d) d = z := by
  unfold rne
  simp only [Nat.mul_div_cancel z hd, Nat.mul_mod_left]
  rw [if_pos (by omega)]

theorem rne_mono (n1 d1 n2 d2 : Nat) (hd1 : 0 < d1) (hd2 : 0 < d2)
    (h : n1 * d2 ≤ n2 * d1) : rne n1 d1 ≤ rne n2 d2 := by
  have hq : n1 / d1 ≤ n2 / d2 := by
    rw [Nat.le_div_iff_mul_le hd2]
    have h1 : n1 / d1 * d1 ≤ n1 := Nat.div_mul_le_self n1 d1
    have h2 : n1 / d1 * d2 * d1 ≤ n2 * d1 := by
      calc n1 / d1 * d2 * d1 = n1 / d1 * d1 * d2 := by ring
        _ ≤ n1 * d2 := Nat.mul_le_mul_right d2 h1
        _ ≤ n2 * d1 := h
    exact Nat.le_of_mul_le_mul_right h2 hd1
  rcases Nat.lt_or_eq_of_le hq with hlt | heq
  · calc rne n1 d1 ≤ n1 / d1 + 1 := rne_le n1 d1
      _ ≤ n2 / d2 := hlt
      _ ≤ rne n2 d2 := rne_ge n2 d2
  · have e1 : d1 * (n1 / d1) + n1 % d1 = n1 := Nat.div_add_mod n1 d1
    have e2 : d2 * (n2 / d2) + n2 % d2 = n2 := Nat.div_add_mod n2 d2
    have r1 : n1 % d1 < d1 := Nat.mod_lt n1 hd1
    have r2 : n2 % d2 < d2 := Nat.mod_lt n2 hd2
    have hr : n1 % d1 * d2 ≤ n2 % d2 * d1 := by
      have h3 : (d1 * (n1 / d1) + n1 % d1) * d2 ≤ (d2 * (n2 / d2) + n2 % d2) * d1 := by
        rw [e1, e2]; exact h
      rw [heq] at h3
      nlinarith
    unfold rne
    simp only
    rw [heq]
    generalize n1 % d1 = a at *
    generalize n2 % d2 = b at *
    generalize n2 / d2 = q at *
    split_ifs <;> first | omega | (exfalso; nlinarith)

theorem qval_frac (n d : Nat) (t : Int) :
    ((n * 2 ^ t.toNat : Nat) : ℚ) / ((d * 2 ^ (-t).toNat : Nat) : ℚ) = qval n d t := by
  unfold qval
  rw [two_zpow_split t]
  push_cast
  by_cases hd : (d : ℚ) = 0
  · simp [hd]
  · field_simp

theorem rneScaled_mono (n1 d1 n2 d2 : Nat) (t1 t2 : Int) (hd1 : 0 < d1) (hd2 : 0 < d2)
    (h : qval n1 d1 t1 ≤ qval n2 d2 t2) : rneScaled n1 d1 t1 ≤ rneScaled n2 d2 t2 := by
  unfold rneScaled
  have p1 : 0 < d1 * 2 ^ (-t1).toNat := by positivity
  have p2 : 0 < d2 * 2 ^ (-t2).toNat := by positivity
  apply rne_mono _ _ _ _ p1 p2
  rw [← qval_frac, ← qval_frac] at h
  rw [div_le_div_iff₀ (by exact_mod_cast p1) (by exact_mod_cast p2)] at h
  exact_mod_cast h

theorem rneScaled_exact (n d : Nat) (t : Int) (z : Nat) (hd : 0 < d)
    (h : qval n d t = (z : ℚ)) : rneScaled n d t = z := by
  unfold rneScaled
  have p1 : 0 < d * 2 ^ (-t).toNat := by positivity
  rw [← qval_frac, div_eq_iff (by exact_mod_cast (Nat.pos_iff_ne_zero.mp p1))] at h
  have h' : n * 2 ^ t.toNat = z * (d * 2 ^ (-t).toNat) := by exact_mod_cast h
  rw [h']
  exact rne_exact z _ p1

theorem qval_nat (z : Nat) : qval z 1 0 = (z : ℚ) := by
  simp [qval]

theorem rneScaled_le_of_le (n d : Nat) (t : Int) (z : Nat) (hd : 0 < d)
    (h : qval n d t ≤ (z : ℚ)) : rneScaled n d t ≤ z := by
  have h1 := rneScaled_mono n d z 1 t 0 hd Nat.one_pos (by rw [qval_nat]; exact h)
  rwa [rneScaled_exact z 1 0 z Nat.one_pos (qval_nat z)] at h1

theorem rneScaled_ge_of_ge (n d : Nat) (t : Int) (z : Nat) (hd : 0 < d)
    (h : (z : ℚ) ≤ qval n d t) : z ≤ rneScaled n d t := by
  have h1 := rneScaled_mono z 1 n d 0 t Nat.one_pos hd (by rw [qval_nat]; exact h)
  rwa [rneScaled_exact z 1 0 z Nat.one_pos (qval_nat z)] at h1

theorem two_zpow_le {a b : Int} (h : a ≤ b) : (2 : ℚ) ^ a ≤ (2 : ℚ) ^ b :=
  zpow_le_zpow_right₀ (by norm_num) h

theorem two_zpow_lt_imp {a b : Int} (h : (2 : ℚ) ^ a < (2 : ℚ) ^ b) : a < b :=
  (zpow_lt_zpow_iff_right₀ (by norm_num : (1 : ℚ) < 2)).mp h

theorem two_zpow_pos (a : Int) : (0 : ℚ) < (2 : ℚ) ^ a := by positivity

theorem qval_shift (n d : Nat) (s k : Int) :
    qval n d (s - k) = qval n d s * (2 : ℚ) ^ (-k) := by
  unfold qval
  rw [sub_eq_add_neg, zpow_add₀ (by norm_num : (2 : ℚ) ≠ 0)]
  ring

theorem qval_pos (n d : Nat) (s : Int) (hn : 0 < n) (hd : 0 < d) : 0 < qval n d s := by
  unfold qval
  have h1 : (0 : ℚ) < n := by exact_mod_cast hn
  have h2 : (0 : ℚ) < d := by exact_mod_cast hd
  positivity

theorem qval_nonneg (n d : Nat) (s : Int) : 0 ≤ qval n d s := by
  unfold qval
  positivity

theorem qval_bounds (n d : Nat) (s : Int) (hn : 0 < n) (hd : 0 < d) :
    (2 : ℚ) ^ (expo n d + s) ≤ qval n d s ∧ qval n d s < (2 : ℚ) ^ (expo n d + s + 1) := by
  obtain ⟨h1, h2⟩ := expo_spec n d hn hd
  have hp := two_zpow_pos s
  have e1 : (2 : ℚ) ^ (expo n d + s) = (2 : ℚ) ^ expo n d * (2 : ℚ) ^ s :=
    zpow_add₀ (by norm_num) _ _
  have e2 : (2 : ℚ) ^ (expo n d + s + 1) = (2 : ℚ) ^ (expo n d + 1) * (2 : ℚ) ^ s := by
    rw [← zpow_add₀ (by norm_num : (2 : ℚ) ≠ 0)]
    congr 1
    ring
  unfold qval
  rw [e1, e2]
  exact ⟨mul_le_mul_of_nonneg_right h1 hp.le, mul_lt_mul_of_pos_right h2 hp⟩

theorem roundMag_snd (n d : Nat) (s : Int) :
    (roundMag n d s).2 = max (expo n d + s) (-1022) - 52 := rfl

theorem roundMag_fst (n d : Nat) (s : Int) :
    (roundMag n d s).1 = rneScaled n d (s - (max (expo n d + s) (-1022) - 52)) := rfl

theorem roundMag_le (n d : Nat) (s : Int) (hn : 0 < n) (hd : 0 < d) :
    (roundMag n d s).1 ≤ 2 ^ 53 := by
  rw [roundMag_fst]
  apply rneScaled_le_of_le _ _ _ _ hd
  obtain ⟨_, h2⟩ := qval_bounds n d s hn hd
  rw [qval_shift]
  set k := max (expo n d + s) (-1022) - 52 with hk
  have hp := two_zpow_pos (-k)
  have h3 : qval n d s * (2 : ℚ) ^ (-k) ≤ (2 : ℚ) ^ (expo n d + s + 1) * (2 : ℚ) ^ (-k) :=
    mul_le_mul_of_nonneg_right h2.le hp.le
  rw [← zpow_add₀ (by norm_num : (2 : ℚ) ≠ 0)] at h3
  have h4 : (2 : ℚ) ^ (expo n d + s + 1 + -k) ≤ (2 : ℚ) ^ (53 : Int) :=
    two_zpow_le (by omega)
  have h5 : ((2 ^ 53 : Nat) : ℚ) = (2 : ℚ) ^ (53 : Int) := by norm_num
  rw [h5]
  exact le_trans h3 h4

theorem roundMag_ge (n d : Nat) (s : Int) (hn : 0 < n) (hd : 0 < d)
    (hE : -1022 ≤ expo n d + s) : 2 ^ 52 ≤ (roundMag n d s).1 := by
  rw [roundMag_fst]
  apply rneScaled_ge_of_ge _ _ _ _ hd
  obtain ⟨h1, _⟩ := qval_bounds n d s hn hd
  rw [qval_shift]
  set k := max (expo n d + s) (-1022) - 52 with hk
  have hp := two_zpow_pos (-k)
  have h3 : (2 : ℚ) ^ (expo n d + s) * (2 : ℚ) ^ (-k) ≤ qval n d s * (2 : ℚ) ^ (-k) :=
    mul_le_mul_of_nonneg_right h1 hp.le
  rw [← zpow_add₀ (by norm_num : (2 : ℚ) ≠ 0)] at h3
  have h4 : (2 : ℚ) ^ (52 : Int) ≤ (2 : ℚ) ^ (expo n d + s + -k) :=
    two_zpow_le (by omega)
  have h5 : ((2 ^ 52 : Nat) : ℚ) = (2 : ℚ) ^ (52 : Int) := by norm_num
  rw [h5]
  exact le_trans h4 h3

theorem fval_mono_left (m1 m2 : Nat) (k : Int) (h : m1 ≤ m2) : fval m1 k ≤ fval m2 k := by
  unfold fval
  have h' : (m1 : ℚ) ≤ m2 := by exact_mod_cast h
  exact mul_le_mul_of_nonneg_right h' (two_zpow_pos k).le

theorem fval_two_pow (j : Nat) (k : Int) : fval (2 ^ j) k = (2 : ℚ) ^ ((j : Int) + k) := by
  unfold fval
  rw [zpow_add₀ (by norm_num : (2 : ℚ) ≠ 0), zpow_natCast]
  push_cast
  rfl

theorem roundMag_mono (n1 d1 n2 d2 : Nat) (s1 s2 : Int) (hn1 : 0 < n1) (hd1 : 0 < d1)
    (hn2 : 0 < n2) (hd2 : 0 < d2) (h : qval n1 d1 s1 ≤ qval n2 d2 s2) :
    fval (roundMag n1 d1 s1).1 (roundMag n1 d1 s1).2 ≤
      fval (roundMag n2 d2 s2).1 (roundMag n2 d2 s2).2 := by
  obtain ⟨a1, _⟩ := qval_bounds n1 d1 s1 hn1 hd1
  obtain ⟨_, b2⟩ := qval_bounds n2 d2 s2 hn2 hd2
  have hE : expo n1 d1 + s1 < expo n2 d2 + s2 + 1 :=
    two_zpow_lt_imp (lt_of_le_of_lt (le_trans a1 h) b2)
  have hk1 := roundMag_snd n1 d1 s1
  have hk2 := roundMag_snd n2 d2 s2
  have hk : (roundMag n1 d1 s1).2 ≤ (roundMag n2 d2 s2).2 := by
    rw [hk1, hk2]; omega
  rcases lt_or_eq_of_le hk with hlt | heq
  · have hE2 : -1022 ≤ expo n2 d2 + s2 := by
      rw [hk1, hk2] at hlt; omega
    have m1 := roundMag_le n1 d1 s1 hn1 hd1
    have m2 := roundMag_ge n2 d2 s2 hn2 hd2 hE2
    calc fval (roundMag n1 d1 s1).1 (roundMag n1 d1 s1).2
        ≤ fval (2 ^ 53) (roundMag n1 d1 s1).2 := fval_mono_left _ _ _ m1
      _ = (2 : ℚ) ^ (((53 : Nat) : Int) + (roundMag n1 d1 s1).2) := fval_two_pow 53 _
      _ ≤ (2 : ℚ) ^ (((52 : Nat) : Int) + (roundMag n2 d2 s2).2) := two_zpow_le (by omega)
      _ = fval (2 ^ 52) (roundMag n2 d2 s2).2 := (fval_two_pow 52 _).symm
      _ ≤ fval (roundMag n2 d2 s2).1 (roundMag n2 d2 s2).2 := fval_mono_left _ _ _ m2
  · rw [← heq]
    apply fval_mono_left
    rw [roundMag_fst, roundMag_fst, ← roundMag_snd, ← roundMag_snd, ← heq]
    apply rneScaled_mono _ _ _ _ _ _ hd1 hd2
    rw [qval_shift, qval_shift]
    exact mul_le_mul_of_nonneg_right h (two_zpow_pos _).le

theorem roundMag_exact (n d : Nat) (s : Int) (m : Nat) (e : Int) (hn : 0 < n) (hd : 0 < d)
    (hm : m < 2 ^ 53) (he : -1074 ≤ e) (h : qval n d s = fval m e) :
    fval (roundMag n d s).1 (roundMag n d s).2 = fval m e := by
  obtain ⟨a1, _⟩ := qval_bounds n d s hn hd
  have hmq : (m : ℚ) < (2 : ℚ) ^ (53 : Int) := by
    have : ((2 ^ 53 : Nat) : ℚ) = (2 : ℚ) ^ (53 : Int) := by norm_num
    rw [← this]
    exact_mod_cast hm
  have hlt : (2 : ℚ) ^ (expo n d + s) < (2 : ℚ) ^ ((53 : Int) + e) := by
    have e53 : (2 : ℚ) ^ ((53 : Int) + e) = (2 : ℚ) ^ (53 : Int) * (2 : ℚ) ^ e :=
      zpow_add₀ (by norm_num) _ _
    rw [e53]
    calc (2 : ℚ) ^ (expo n d + s) ≤ qval n d s := a1
      _ = (m : ℚ) * (2 : ℚ) ^ e := h
      _ < (2 : ℚ) ^ (53 : Int) * (2 : ℚ) ^ e := mul_lt_mul_of_pos_right hmq (two_zpow_pos e)
  have hE := two_zpow_lt_imp hlt
  have hk := roundMag_snd n d s
  have hke : (roundMag n d s).2 ≤ e := by rw [hk]; omega
  set k := (roundMag n d s).2 with hkdef
  have hz : qval n d (s - k) = ((m * 2 ^ (e - k).toNat : Nat) : ℚ) := by
    rw [qval_shift, h]
    unfold fval
    push_cast
    rw [mul_assoc, ← zpow_add₀ (by norm_num : (2 : ℚ) ≠ 0), ← zpow_natCast]
    congr 2
    omega
  have hfst : (roundMag n d s).1 = m * 2 ^ (e - k).toNat := by
    rw [roundMag_fst, ← roundMag_snd, ← hkdef]
    exact rneScaled_exact n d (s - k) _ hd hz
  rw [hfst]
  unfold fval
  push_cast
  rw [mul_assoc, ← zpow_natCast, ← zpow_add₀ (by norm_num : (2 : ℚ) ≠ 0)]
  congr 2
  omega

theorem fval_nonneg (m : Nat) (e : Int) : 0 ≤ fval m e := by
  unfold fval
  positivity

theorem rmag_nonneg (n d : Nat) (s : Int) : 0 ≤ rmag n d s := by
  unfold rmag
  split_ifs
  · exact le_refl 0
  · exact le_min (fval_nonneg _ _) (two_zpow_pos _).le

theorem rmag_le_top (n d : Nat) (s : Int) : rmag n d s ≤ (2 : ℚ) ^ (1024 : Int) := by
  unfold rmag
  split_ifs
  · exact (two_zpow_pos _).le
  · exact min_le_right _ _

theorem qval_zero_iff (n d : Nat) (s : Int) (hd : 0 < d) : qval n d s = 0 ↔ n = 0 := by
  constructor
  · intro h
    by_contra hn
    have := qval_pos n d s (Nat.pos_of_ne_zero hn) hd
    linarith
  · intro h
    simp [qval, h]

theorem rmag_mono (n1 d1 n2 d2 : Nat) (s1 s2 : Int) (hd1 : 0 < d1) (hd2 : 0 < d2)
    (h : qval n1 d1 s1 ≤ qval n2 d2 s2) : rmag n1 d1 s1 ≤ rmag n2 d2 s2 := by
  by_cases hn1 : n1 = 0
  · have : rmag n1 d1 s1 = 0 := by simp [rmag, hn1]
    rw [this]
    exact rmag_nonneg _ _ _
  · have p1 := qval_pos n1 d1 s1 (Nat.pos_of_ne_zero hn1) hd1
    have hn2 : n2 ≠ 0 := by
      intro h0
      have := (qval_zero_iff n2 d2 s2 hd2).mpr h0
      linarith
    unfold rmag
    rw [if_neg hn1, if_neg hn2]
    exact min_le_min
      (roundMag_mono n1 d1 n2 d2 s1 s2 (Nat.pos_of_ne_zero hn1) hd1 (Nat.pos_of_ne_zero hn2)
        hd2 h) (le_refl _)

theorem fval_lt_top (m : Nat) (e : Int) (hm : m < 2 ^ 53) (he : e ≤ 971) :
    fval m e < (2 : ℚ) ^ (1024 : Int) := by
  have hmq : (m : ℚ) < (2 : ℚ) ^ (53 : Int) := by
    have : ((2 ^ 53 : Nat) : ℚ) = (2 : ℚ) ^ (53 : Int) := by norm_num
    rw [← this]
    exact_mod_cast hm
  have e1 : (2 : ℚ) ^ ((53 : Int) + e) = (2 : ℚ) ^ (53 : Int) * (2 : ℚ) ^ e :=
    zpow_add₀ (by norm_num) _ _
  calc fval m e = (m : ℚ) * (2 : ℚ) ^ e := rfl
    _ < (2 : ℚ) ^ (53 : Int) * (2 : ℚ) ^ e := mul_lt_mul_of_pos_right hmq (two_zpow_pos e)
    _ = (2 : ℚ) ^ ((53 : Int) + e) := e1.symm
    _ ≤ (2 : ℚ) ^ (1024 : Int) := two_zpow_le (by omega)

theorem rmag_exact (n d : Nat) (s : Int) (m : Nat) (e : Int) (hd : 0 < d)
    (hm : m < 2 ^ 53) (he : -1074 ≤ e) (he2 : e ≤ 971) (h : qval n d s = fval m e) :
    rmag n d s = fval m e := by
  by_cases hn : n = 0
  · have h0 := (qval_zero_iff n d s hd).mpr hn
    rw [← h, h0]
    simp [rmag, hn]
  · unfold rmag
    rw [if_neg hn, roundMag_exact n d s m e (Nat.pos_of_ne_zero hn) hd hm he h]
    exact min_eq_left (fval_lt_top m e hm he2).le

theorem natAbs_cast_of_nonneg (z : Int) (h : 0 ≤ z) : ((z.natAbs : Nat) : ℚ) = (z : ℚ) := by
  rw [Nat.cast_natAbs, abs_of_nonneg h]

theorem natAbs_cast_of_neg (z : Int) (h : z < 0) : ((z.natAbs : Nat) : ℚ) = -(z : ℚ) := by
  rw [Nat.cast_natAbs, abs_of_neg h]
  push_cast
  rfl

theorem qval_num_den (v : ℚ) (hv : 0 ≤ v) : qval v.num.natAbs v.den 0 = v := by
  unfold qval
  rw [natAbs_cast_of_nonneg _ (Rat.num_nonneg.mpr hv)]
  simp [Rat.num_div_den]

theorem rmag_eq_rnd (n d : Nat) (s : Int) (hd : 0 < d) : rmag n d s = rnd (qval n d s) := by
  have hv := qval_nonneg n d s
  unfold rnd
  rw [if_neg (not_lt.mpr hv)]
  have hq := qval_num_den (qval n d s) hv
  apply le_antisymm
  · exact rmag_mono _ _ _ _ _ _ hd (Rat.den_pos _) (by rw [hq])
  · exact rmag_mono _ _ _ _ _ _ (Rat.den_pos _) hd (by rw [hq])

theorem rnd_of_nonneg (v : ℚ) (hv : 0 ≤ v) : rnd v = rmag v.num.natAbs v.den 0 := by
  unfold rnd
  rw [if_neg (not_lt.mpr hv)]

theorem rnd_zero : rnd 0 = 0 := by
  simp [rnd, rmag]

theorem rnd_nonneg (v : ℚ) (hv : 0 ≤ v) : 0 ≤ rnd v := by
  rw [rnd_of_nonneg v hv]
  exact rmag_nonneg _ _ _

theorem rnd_neg (v : ℚ) : rnd (-v) = -rnd v := by
  rcases lt_trichotomy v 0 with h | h | h
  · have h1 : ¬ (-v < 0) := by linarith
    unfold rnd
    rw [if_neg h1, if_pos h]
    simp
  · subst h
    simp [rnd_zero]
  · have h1 : ¬ (v < 0) := by linarith
    have h2 : -v < 0 := by linarith
    unfold rnd
    rw [if_pos h2, if_neg h1]
    simp

theorem rnd_mono_nonneg (v w : ℚ) (hv : 0 ≤ v) (h : v ≤ w) : rnd v ≤ rnd w := by
  rw [rnd_of_nonneg v hv, rnd_of_nonneg w (le_trans hv h)]
  apply rmag_mono _ _ _ _ _ _ (Rat.den_pos _) (Rat.den_pos _)
  rw [qval_num_den v hv, qval_num_den w (le_trans hv h)]
  exact h

theorem rnd_mono (v w : ℚ) (h : v ≤ w) : rnd v ≤ rnd w := by
  rcases le_or_lt 0 v with hv | hv
  · exact rnd_mono_nonneg v w hv h
  · rcases le_or_lt 0 w with hw | hw
    · have h1 : rnd v ≤ 0 := by
        have := rnd_nonneg (-v) (by linarith)
        rw [rnd_neg] at this
        linarith
      exact le_trans h1 (rnd_nonneg w hw)
    · have := rnd_mono_nonneg (-w) (-v) (by linarith) (by linarith)
      rw [rnd_neg, rnd_neg] at this
      linarith

theorem rnd_fval (m : Nat) (e : Int) (hm : m < 2 ^ 53) (he : -1074 ≤ e) (he2 : e ≤ 971) :
    rnd (fval m e) = fval m e := by
  have hv := fval_nonneg m e
  rw [rnd_of_nonneg _ hv]
  exact rmag_exact _ _ 0 m e (Rat.den_pos _) hm he he2 (qval_num_den _ hv)

theorem rnd_natCast (z : Nat) (hz : z < 2 ^ 53) : rnd (z : ℚ) = (z : ℚ) := by
  have h := rnd_fval z 0 hz (by norm_num) (by norm_num)
  simpa [fval] using h

theorem rnd_intCast (z : Int) (hz : z.natAbs < 2 ^ 53) : rnd (z : ℚ) = (z : ℚ) := by
  rcases le_or_lt 0 z with h | h
  · have e : ((z.natAbs : Nat) : ℚ) = (z : ℚ) := natAbs_cast_of_nonneg z h
    rw [← e]
    exact rnd_natCast _ hz
  · have e : ((z.natAbs : Nat) : ℚ) = -(z : ℚ) := natAbs_cast_of_neg z h
    have h1 := rnd_natCast _ hz
    rw [e, rnd_neg] at h1
    linarith

theorem rnd_two_zpow (j : Int) (h1 : -1022 ≤ j) (h2 : j ≤ 1023) :
    rnd ((2 : ℚ) ^ j) = (2 : ℚ) ^ j := by
  have h := rnd_fval (2 ^ 52) (j - 52) (by norm_num) (by omega) (by omega)
  rw [fval_two_pow] at h
  have e : ((52 : Nat) : Int) + (j - 52) = j := by omega
  rwa [e] at h

theorem rnd_abs_le (v : ℚ) (j : Int) (h1 : -1022 ≤ j) (h2 : j ≤ 1023)
    (h : |v| ≤ (2 : ℚ) ^ j) : |rnd v| ≤ (2 : ℚ) ^ j := by
  rw [abs_le] at h ⊢
  constructor
  · have := rnd_mono _ _ h.1
    rwa [rnd_neg, rnd_two_zpow j h1 h2] at this
  · have := rnd_mono _ _ h.2
    rwa [rnd_two_zpow j h1 h2] at this

theorem top_eq : (2 : ℚ) ^ (1024 : Int) = fval (2 ^ 52) 972 := by
  rw [fval_two_pow]
  norm_num

theorem round_spec (neg : Bool) (n d : Nat) (s : Int) (hd : 0 < d) :
    (Dbl.round neg n d s).val = Dbl.sgn neg * rmag n d s ∧
    ((∃ m e, Dbl.round neg n d s = Dbl.fin neg m e) ∨
      (Dbl.round neg n d s = Dbl.inf neg ∧ rmag n d s = (2 : ℚ) ^ (1024 : Int))) := by
  by_cases hn : n = 0
  · simp [Dbl.round, hn, Dbl.val, rmag, fval]
  · have hn' := Nat.pos_of_ne_zero hn
    have hle := roundMag_le n d s hn' hd
    have hsnd := roundMag_snd n d s
    unfold Dbl.round rmag
    rw [if_neg hn, if_neg hn]
    simp only
    by_cases h53 : (roundMag n d s).1 = 2 ^ 53
    · rw [if_pos h53, if_pos h53, if_neg (by norm_num), h53, fval_two_pow]
      by_cases hk : 971 < (roundMag n d s).2 + 1
      · rw [if_pos hk]
        have hge : (2 : ℚ) ^ (1024 : Int) ≤ (2 : ℚ) ^ (((53 : Nat) : Int) + (roundMag n d s).2) :=
          two_zpow_le (by omega)
        rw [min_eq_right hge]
        exact ⟨rfl, Or.inr ⟨rfl, rfl⟩⟩
      · rw [if_neg hk]
        have hge : (2 : ℚ) ^ (((53 : Nat) : Int) + (roundMag n d s).2) ≤ (2 : ℚ) ^ (1024 : Int) :=
          two_zpow_le (by omega)
        rw [min_eq_left hge]
        refine ⟨?_, Or.inl ⟨_, _, rfl⟩⟩
        simp only [Dbl.val]
        rw [fval_two_pow]
        congr 2
        omega
    · rw [if_neg h53, if_neg h53]
      by_cases h0 : (roundMag n d s).1 = 0
      · rw [if_pos h0, h0]
        have hz : fval 0 (roundMag n d s).2 = 0 := by simp [fval]
        rw [hz, min_eq_left (two_zpow_pos _).le]
        refine ⟨?_, Or.inl ⟨_, _, rfl⟩⟩
        simp [Dbl.val, fval]
      · rw [if_neg h0]
        by_cases hk : 971 < (roundMag n d s).2
        · rw [if_pos hk]
          have hE : -1022 ≤ expo n d + s := by rw [hsnd] at hk; omega
          have hge := roundMag_ge n d s hn' hd hE
          have h1 : (2 : ℚ) ^ (1024 : Int) ≤ fval (roundMag n d s).1 (roundMag n d s).2 := by
            calc (2 : ℚ) ^ (1024 : Int) ≤ (2 : ℚ) ^ (((52 : Nat) : Int) + (roundMag n d s).2) :=
                  two_zpow_le (by omega)
              _ = fval (2 ^ 52) (roundMag n d s).2 := (fval_two_pow 52 _).symm
              _ ≤ fval (roundMag n d s).1 (roundMag n d s).2 := fval_mono_left _ _ _ hge
          rw [min_eq_right h1]
          exact ⟨rfl, Or.inr ⟨rfl, rfl⟩⟩
        · rw [if_neg hk]
          have hlt : (roundMag n d s).1 < 2 ^ 53 := lt_of_le_of_ne hle h53
          have h1 := fval_lt_top _ _ hlt (not_lt.mp hk)
          rw [min_eq_left h1.le]
          exact ⟨rfl, Or.inl ⟨_, _, rfl⟩⟩

theorem round_val (neg : Bool) (n d : Nat) (s : Int) (hd : 0 < d) :
    (Dbl.round neg n d s).val = Dbl.sgn neg * rnd (qval n d s) := by
  rw [(round_spec neg n d s hd).1, rmag_eq_rnd n d s hd]

theorem round_isFin (neg : Bool) (n d : Nat) (s : Int) (hd : 0 < d)
    (h : rnd (qval n d s) < (2 : ℚ) ^ (1024 : Int)) : (Dbl.round neg n d s).IsFin := by
  rcases (round_spec neg n d s hd).2 with ⟨m, e, hme⟩ | ⟨_, htop⟩
  · exact ⟨neg, m, e, hme⟩
  · rw [rmag_eq_rnd n d s hd] at htop
    linarith

theorem round_nonzero (neg : Bool) (n d : Nat) (s : Int) (hn : 0 < n) (hd : 0 < d)
    (hE : -1022 ≤ expo n d + s) :
    (∃ m e, m ≠ 0 ∧ Dbl.round neg n d s = Dbl.fin neg m e) ∨
      Dbl.round neg n d s = Dbl.inf neg := by
  have hge := roundMag_ge n d s hn hd hE
  unfold Dbl.round
  rw [if_neg (by omega)]
  simp only
  by_cases h53 : (roundMag n d s).1 = 2 ^ 53
  · rw [if_pos h53, if_pos h53, if_neg (by norm_num)]
    split_ifs
    · exact Or.inr rfl
    · exact Or.inl ⟨_, _, by norm_num, rfl⟩
  · rw [if_neg h53, if_neg h53, if_neg (by omega)]
    split_ifs
    · exact Or.inr rfl
    · exact Or.inl ⟨_, _, by omega, rfl⟩

theorem expo_nat_nonneg (n : Nat) (hn : 0 < n) : 0 ≤ expo n 1 := by
  obtain ⟨_, h2⟩ := expo_spec n 1 hn Nat.one_pos
  have h1 : (1 : ℚ) ≤ (n : ℚ) := by exact_mod_cast hn
  have h3 : (2 : ℚ) ^ (0 : Int) < (2 : ℚ) ^ (expo n 1 + 1) := by
    simp only [zpow_zero]
    simp only [Nat.cast_one, div_one] at h2
    linarith
  have := two_zpow_lt_imp h3
  omega

theorem ofInt_nonzero (i : Int) (hi : i ≠ 0) :
    (∃ m e, m ≠ 0 ∧ Dbl.ofInt i = Dbl.fin (decide (i < 0)) m e) ∨
      Dbl.ofInt i = Dbl.inf (decide (i < 0)) := by
  have hn : 0 < i.natAbs := Int.natAbs_pos.mpr hi
  have := expo_nat_nonneg i.natAbs hn
  exact round_nonzero _ _ _ _ hn Nat.one_pos (by omega)

theorem ofInt_zero : Dbl.ofInt 0 = Dbl.fin false 0 0 := by
  decide

theorem sgn_mul_rnd (neg : Bool) (v : ℚ) : Dbl.sgn neg * rnd v = rnd (Dbl.sgn neg * v) := by
  cases neg
  · simp [Dbl.sgn]
  · simp [Dbl.sgn, rnd_neg]

theorem ofInt_val (i : Int) : (Dbl.ofInt i).val = rnd (i : ℚ) := by
  unfold Dbl.ofInt
  rw [round_val _ _ _ _ Nat.one_pos, qval_nat, sgn_mul_rnd]
  congr 1
  rcases le_or_lt 0 i with h | h
  · have : decide (i < 0) = false := by simp; omega
    rw [this, natAbs_cast_of_nonneg i h]
    simp [Dbl.sgn]
  · have : decide (i < 0) = true := by simp; omega
    rw [this, natAbs_cast_of_neg i h]
    simp [Dbl.sgn]

theorem ofInt_isFin (i : Int) (h : |(i : ℚ)| ≤ (2 : ℚ) ^ (1023 : Int)) : (Dbl.ofInt i).IsFin := by
  unfold Dbl.ofInt
  apply round_isFin _ _ _ _ Nat.one_pos
  rw [qval_nat]
  have h1 : |((i.natAbs : Nat) : ℚ)| ≤ (2 : ℚ) ^ (1023 : Int) := by
    rw [Nat.cast_natAbs]
    simpa using h
  have h2 := rnd_abs_le _ 1023 (by norm_num) (by norm_num) h1
  have h3 := (abs_le.mp h2).2
  have h4 : (2 : ℚ) ^ (1023 : Int) < (2 : ℚ) ^ (1024 : Int) :=
    zpow_lt_zpow_right₀ (by norm_num) (by norm_num)
  linarith

theorem sgn_xor (a b : Bool) : Dbl.sgn (xor a b) = Dbl.sgn a * Dbl.sgn b := by
  cases a <;> cases b <;> simp [Dbl.sgn]

theorem sgn_abs (neg : Bool) : |Dbl.sgn neg| = 1 := by
  cases neg <;> simp [Dbl.sgn]

theorem mul_val (s1 s2 : Bool) (m1 m2 : Nat) (e1 e2 : Int) :
    (Dbl.mul (.fin s1 m1 e1) (.fin s2 m2 e2)).val =
      rnd ((Dbl.fin s1 m1 e1).val * (Dbl.fin s2 m2 e2).val) := by
  simp only [Dbl.mul]
  rw [round_val _ _ _ _ Nat.one_pos, sgn_mul_rnd, sgn_xor]
  congr 1
  simp only [Dbl.val, qval, fval]
  push_cast
  rw [zpow_add₀ (by norm_num : (2 : ℚ) ≠ 0)]
  ring

theorem div_val (s1 s2 : Bool) (m1 m2 : Nat) (e1 e2 : Int) (hm : m2 ≠ 0) :
    (Dbl.div (.fin s1 m1 e1) (.fin s2 m2 e2)).val =
      rnd ((Dbl.fin s1 m1 e1).val / (Dbl.fin s2 m2 e2).val) := by
  simp only [Dbl.div]
  rw [if_neg hm, round_val _ _ _ _ (Nat.pos_of_ne_zero hm), sgn_mul_rnd, sgn_xor]
  congr 1
  simp only [Dbl.val, qval, fval]
  rw [zpow_sub₀ (by norm_num : (2 : ℚ) ≠ 0)]
  have h2 : (m2 : ℚ) ≠ 0 := by exact_mod_cast hm
  have h3 : Dbl.sgn s2 ≠ 0 := by cases s2 <;> simp [Dbl.sgn]
  have h4 : Dbl.sgn s2 * Dbl.sgn s2 = 1 := by cases s2 <;> simp [Dbl.sgn]
  field_simp
  linear_combination (Dbl.sgn s1 * (m1 : ℚ) * 2 ^ e1 * (m2 : ℚ) * 2 ^ e2) * h4

theorem two_1023_lt : (2 : ℚ) ^ (1023 : Int) < (2 : ℚ) ^ (1024 : Int) :=
  zpow_lt_zpow_right₀ (by norm_num) (by norm_num)

theorem round_isFin_of_abs (neg : Bool) (n d : Nat) (s : Int) (v : ℚ) (hd : 0 < d)
    (hv : Dbl.sgn neg * qval n d s = v) (h : |v| ≤ (2 : ℚ) ^ (1023 : Int)) :
    (Dbl.round neg n d s).IsFin := by
  apply round_isFin _ _ _ _ hd
  have h1 : |qval n d s| ≤ (2 : ℚ) ^ (1023 : Int) := by
    rw [← hv, abs_mul, sgn_abs, one_mul] at h
    exact h
  have h2 := (abs_le.mp (rnd_abs_le _ 1023 (by norm_num) (by norm_num) h1)).2
  linarith [two_1023_lt]

theorem mul_isFin (s1 s2 : Bool) (m1 m2 : Nat) (e1 e2 : Int)
    (h : |(Dbl.fin s1 m1 e1).val * (Dbl.fin s2 m2 e2).val| ≤ (2 : ℚ) ^ (1023 : Int)) :
    (Dbl.mul (.fin s1 m1 e1) (.fin s2 m2 e2)).IsFin := by
  simp only [Dbl.mul]
  apply round_isFin_of_abs _ _ _ _ _ Nat.one_pos _ h
  rw [sgn_xor]
  simp only [Dbl.val, qval, fval]
  push_cast
  rw [zpow_add₀ (by norm_num : (2 : ℚ) ≠ 0)]
  ring

theorem div_isFin (s1 s2 : Bool) (m1 m2 : Nat) (e1 e2 : Int) (hm : m2 ≠ 0)
    (h : |(Dbl.fin s1 m1 e1).val / (Dbl.fin s2 m2 e2).val| ≤ (2 : ℚ) ^ (1023 : Int)) :
    (Dbl.div (.fin s1 m1 e1) (.fin s2 m2 e2)).IsFin := by
  simp only [Dbl.div]
  rw [if_neg hm]
  apply round_isFin_of_abs _ _ _ _ _ (Nat.pos_of_ne_zero hm) _ h
  rw [sgn_xor]
  simp only [Dbl.val, qval, fval]
  rw [zpow_sub₀ (by norm_num : (2 : ℚ) ≠ 0)]
  have h2 : (m2 : ℚ) ≠ 0 := by exact_mod_cast hm
  have h3 : Dbl.sgn s2 ≠ 0 := by cases s2 <;> simp [Dbl.sgn]
  have h4 : Dbl.sgn s2 * Dbl.sgn s2 = 1 := by cases s2 <;> simp [Dbl.sgn]
  field_simp
  linear_combination (Dbl.sgn s1 * (m1 : ℚ) * 2 ^ e1 * (m2 : ℚ) * 2 ^ e2) * h4

theorem scaled_val (neg : Bool) (m : Nat) (e e0 : Int) (h : e0 ≤ e) :
    ((Dbl.scaled neg m e e0 : Int) : ℚ) * (2 : ℚ) ^ e0 = (Dbl.fin neg m e).val := by
  unfold Dbl.scaled
  simp only [Dbl.val, fval]
  have e1 : (2 : ℚ) ^ e = (2 : ℚ) ^ ((e - e0).toNat : Int) * (2 : ℚ) ^ e0 := by
    rw [← zpow_add₀ (by norm_num : (2 : ℚ) ≠ 0)]
    congr 1
    omega
  rw [e1, zpow_natCast]
  cases neg
  · simp [Dbl.sgn]
    ring
  · simp [Dbl.sgn]
    ring

theorem lt_iff (s1 s2 : Bool) (m1 m2 : Nat) (e1 e2 : Int) :
    Dbl.lt (.fin s1 m1 e1) (.fin s2 m2 e2) = true ↔
      (Dbl.fin s1 m1 e1).val < (Dbl.fin s2 m2 e2).val := by
  simp only [Dbl.lt, decide_eq_true_eq]
  rw [← scaled_val s1 m1 e1 (min e1 e2) (min_le_left _ _),
    ← scaled_val s2 m2 e2 (min e1 e2) (min_le_right _ _)]
  rw [mul_lt_mul_right (two_zpow_pos _)]
  exact Int.cast_lt.symm

theorem sub_exact (s1 s2 : Bool) (m1 m2 : Nat) (e1 e2 : Int) :
    (((Dbl.scaled s1 m1 e1 (min e1 e2) - Dbl.scaled s2 m2 e2 (min e1 e2) : Int) : ℚ)) *
        (2 : ℚ) ^ (min e1 e2) =
      (Dbl.fin s1 m1 e1).val - (Dbl.fin s2 m2 e2).val := by
  rw [← scaled_val s1 m1 e1 (min e1 e2) (min_le_left _ _),
    ← scaled_val s2 m2 e2 (min e1 e2) (min_le_right _ _)]
  push_cast
  ring

theorem sgn_natAbs (d : Int) (e0 : Int) :
    Dbl.sgn (decide (d < 0)) * qval d.natAbs 1 e0 = (d : ℚ) * (2 : ℚ) ^ e0 := by
  unfold qval
  rcases le_or_lt 0 d with h | h
  · have : decide (d < 0) = false := by simp; omega
    rw [this, natAbs_cast_of_nonneg d h]
    simp [Dbl.sgn]
  · have : decide (d < 0) = true := by simp; omega
    rw [this, natAbs_cast_of_neg d h]
    simp [Dbl.sgn]

theorem sub_val (s1 s2 : Bool) (m1 m2 : Nat) (e1 e2 : Int) :
    (Dbl.sub (.fin s1 m1 e1) (.fin s2 m2 e2)).val =
      rnd ((Dbl.fin s1 m1 e1).val - (Dbl.fin s2 m2 e2).val) := by
  have hx := sub_exact s1 s2 m1 m2 e1 e2
  simp only [Dbl.sub]
  split_ifs with h0
  · rw [h0] at hx
    simp only [Int.cast_zero, zero_mul] at hx
    rw [← hx, rnd_zero]
    simp [Dbl.val, fval]
  · rw [round_val _ _ _ _ Nat.one_pos, sgn_mul_rnd, sgn_natAbs, hx]

theorem sub_isFin (s1 s2 : Bool) (m1 m2 : Nat) (e1 e2 : Int)
    (h : |(Dbl.fin s1 m1 e1).val - (Dbl.fin s2 m2 e2).val| ≤ (2 : ℚ) ^ (1023 : Int)) :
    (Dbl.sub (.fin s1 m1 e1) (.fin s2 m2 e2)).IsFin := by
  have hx := sub_exact s1 s2 m1 m2 e1 e2
  simp only [Dbl.sub]
  split_ifs with h0
  · exact ⟨_, _, _, rfl⟩
  · apply round_isFin_of_abs _ _ _ _ _ Nat.one_pos _ h
    rw [sgn_natAbs, hx]

theorem rnd_abs_le_nat (v : ℚ) (j : Nat) (h2 : j ≤ 1023) (h : |v| ≤ (2 : ℚ) ^ j) :
    |rnd v| ≤ (2 : ℚ) ^ j := by
  have := rnd_abs_le v (j : Int) (by omega) (by omega) (by rwa [zpow_natCast])
  rwa [zpow_natCast] at this

theorem le_top_of_le_pow (v : ℚ) (j : Nat) (h2 : j ≤ 1023) (h : |v| ≤ (2 : ℚ) ^ j) :
    |v| ≤ (2 : ℚ) ^ (1023 : Int) := by
  have h3 : (2 : ℚ) ^ (j : Int) ≤ (2 : ℚ) ^ (1023 : Int) := two_zpow_le (by omega)
  rw [zpow_natCast] at h3
  exact le_trans h h3

theorem int_abs_le_pow (z : Int) (j : Nat) (h1 : -2 ^ j ≤ z) (h2 : z ≤ 2 ^ j) :
    |(z : ℚ)| ≤ (2 : ℚ) ^ j := by
  rw [abs_le]
  constructor
  · exact_mod_cast h1
  · exact_mod_cast h2

theorem ofInt_fin (z : Int) (j : Nat) (hj : j ≤ 1023) (h1 : -2 ^ j ≤ z) (h2 : z ≤ 2 ^ j) :
    ∃ neg m e, Dbl.ofInt z = Dbl.fin neg m e ∧ (Dbl.fin neg m e).val = rnd (z : ℚ) := by
  obtain ⟨neg, m, e, h⟩ :=
    ofInt_isFin z (le_top_of_le_pow _ j hj (int_abs_le_pow z j h1 h2))
  exact ⟨neg, m, e, h, by rw [← h]; exact ofInt_val z⟩

theorem rnd_int_small (z : Int) (h1 : -2 ^ 31 ≤ z) (h2 : z ≤ 2 ^ 31) : rnd (z : ℚ) = (z : ℚ) :=
  rnd_intCast z (by omega)

theorem rnd_ge_one (M : Int) (hM : 1 ≤ M) : 1 ≤ rnd (M : ℚ) := by
  have h1 : rnd ((1 : Nat) : ℚ) = ((1 : Nat) : ℚ) := rnd_natCast 1 (by norm_num)
  have h2 := rnd_mono ((1 : Nat) : ℚ) (M : ℚ) (by exact_mod_cast hM)
  rw [h1] at h2
  exact_mod_cast h2

theorem fillTest_iff (lines M s y : Int) (hl1 : 1 ≤ lines) (hl2 : lines < 2 ^ 31)
    (hM1 : 1 ≤ M) (hM2 : M < 2 ^ 63) (hs1 : 0 ≤ s) (hs2 : s < 2 ^ 63)
    (hy1 : 0 ≤ y) (hy2 : y < 2 ^ 31) :
    fillTest s (Dbl.ofInt M) lines y = true ↔ fillLevel lines M s < (y : ℚ) := by
  obtain ⟨sa, ma, ea, hA, vA⟩ := ofInt_fin s 63 (by norm_num) (by omega) (by omega)
  obtain ⟨sm, mm, em, hX, vX⟩ := ofInt_fin M 63 (by norm_num) (by omega) (by omega)
  obtain ⟨sr, mr, er, hR, vR⟩ := ofInt_fin lines 31 (by norm_num) (by omega) (by omega)
  obtain ⟨sl, ml, el, hL, vL⟩ := ofInt_fin (lines - 1) 31 (by norm_num) (by omega) (by omega)
  obtain ⟨sy, my, ey, hY, vY⟩ := ofInt_fin y 31 (by norm_num) (by omega) (by omega)
  rw [rnd_int_small lines (by omega) (by omega)] at vR
  rw [rnd_int_small (lines - 1) (by omega) (by omega)] at vL
  rw [rnd_int_small y (by omega) (by omega)] at vY
  have hX1 := rnd_ge_one M hM1
  have hmm : mm ≠ 0 := by
    intro h0
    rw [h0] at vX
    simp [Dbl.val, fval] at vX
    linarith
  have bA : |rnd (s : ℚ)| ≤ (2 : ℚ) ^ 63 :=
    rnd_abs_le_nat _ 63 (by norm_num) (int_abs_le_pow s 63 (by omega) (by omega))
  have bQ : |rnd (s : ℚ) / rnd (M : ℚ)| ≤ (2 : ℚ) ^ 63 := by
    rw [abs_div]
    have h1 : (1 : ℚ) ≤ |rnd (M : ℚ)| := le_trans hX1 (le_abs_self _)
    exact le_trans (div_le_self (abs_nonneg _) h1) bA
  have vB := div_val sa sm ma mm ea em hmm
  have fB := div_isFin sa sm ma mm ea em hmm
    (by rw [vA, vX]; exact le_top_of_le_pow _ 63 (by norm_num) bQ)
  rw [vA, vX] at vB
  obtain ⟨sb, mb, eb, hB⟩ := fB
  rw [hB] at vB
  have bB : |(Dbl.fin sb mb eb).val| ≤ (2 : ℚ) ^ 63 := by
    rw [vB]; exact rnd_abs_le_nat _ 63 (by norm_num) bQ
  have bR : |(lines : ℚ)| ≤ (2 : ℚ) ^ 31 := int_abs_le_pow lines 31 (by omega) (by omega)
  have bP : |(Dbl.fin sb mb eb).val * (lines : ℚ)| ≤ (2 : ℚ) ^ 94 := by
    rw [abs_mul]
    have : (2 : ℚ) ^ 94 = (2 : ℚ) ^ 63 * (2 : ℚ) ^ 31 := by norm_num
    rw [this]
    exact mul_le_mul bB bR (abs_nonneg _) (by positivity)
  have vC := mul_val sb sr mb mr eb er
  have fC := mul_isFin sb sr mb mr eb er
    (by rw [vR]; exact le_top_of_le_pow _ 94 (by norm_num) bP)
  rw [vR] at vC
  obtain ⟨sc, mc, ec, hC⟩ := fC
  rw [hC] at vC
  have bC : |(Dbl.fin sc mc ec).val| ≤ (2 : ℚ) ^ 94 := by
    rw [vC]; exact rnd_abs_le_nat _ 94 (by norm_num) bP
  have bL : |((lines - 1 : Int) : ℚ)| ≤ (2 : ℚ) ^ 31 :=
    int_abs_le_pow (lines - 1) 31 (by omega) (by omega)
  have bD : |((lines - 1 : Int) : ℚ) - (Dbl.fin sc mc ec).val| ≤ (2 : ℚ) ^ 95 := by
    have : (2 : ℚ) ^ 95 = (2 : ℚ) ^ 94 + (2 : ℚ) ^ 94 := by norm_num
    have h31 : (2 : ℚ) ^ 31 ≤ (2 : ℚ) ^ 94 := by norm_num
    rw [this]
    calc |((lines - 1 : Int) : ℚ) - (Dbl.fin sc mc ec).val|
        ≤ |((lines - 1 : Int) : ℚ)| + |(Dbl.fin sc mc ec).val| := abs_sub _ _
      _ ≤ (2 : ℚ) ^ 94 + (2 : ℚ) ^ 94 := add_le_add (le_trans bL h31) bC
  have vS := sub_val sl sc ml mc el ec
  have fS := sub_isFin sl sc ml mc el ec
    (by rw [vL]; exact le_top_of_le_pow _ 95 (by norm_num) bD)
  rw [vL] at vS
  obtain ⟨ss, ms, es, hS⟩ := fS
  rw [hS] at vS
  unfold fillTest fillLevel
  rw [hA, hX, hB, hR, hC, hL, hS, hY, lt_iff, vS, vC, vB, vY]
  push_cast
  rfl


/-! ## The sampler: proofs -/

theorem push_eq (array : List Int) (cols : Nat) (v : Int) (hlen : array.length = cols)
    (hc : 1 ≤ cols) : push array cols v = array.tail ++ [v] := by
  cases array with
  | nil => simp at hlen; omega
  | cons a t =>
    simp only [List.length_cons] at hlen
    subst hlen
    unfold push memcpy
    simp only [List.take_zero, List.nil_append, List.drop_succ_cons, List.drop_zero,
      Nat.add_sub_cancel, List.take_length, Nat.zero_add, List.tail_cons]
    rw [List.set_append_right _ _ (by simp)]
    congr 1
    have h1 : (List.drop t.length (a :: t)).length = 1 := by simp
    match hd : List.drop t.length (a :: t), h1 with
    | [b], _ => simp

theorem arrayavg_isSome (array : List Int) (cols : Nat) (hc : 2 ≤ cols) :
    ∃ v, arrayavg array cols = some v := by
  have hp : sizePred cols = cols - 1 := by
    unfold sizePred
    rw [if_neg (show ¬ cols = 0 by omega)]
  unfold arrayavg
  simp only [hp]
  rw [if_neg (show ¬ cols - 1 = 0 by omega)]
  exact ⟨_, rfl⟩

theorem getdata_skip (s : State) (delay : Dbl) (cols : Nat) (now base : Int × Int)
    (h : ¬ (s.rx ≠ 0 ∧ s.tx ≠ 0 ∧ s.resize = false)) :
    getdata s delay cols now base = some { s with rx := base.1, tx := base.2 } := by
  unfold getdata
  rw [if_neg h]

theorem getdata_push_eq (s : State) (delay : Dbl) (cols : Nat) (now base : Int × Int)
    (hc : 2 ≤ cols) (h : s.rx ≠ 0 ∧ s.tx ≠ 0 ∧ s.resize = false) :
    ∃ s', getdata s delay cols now base = some s' ∧
      s'.ifa.rxs = push s.ifa.rxs cols (rate now.1 s.rx delay) ∧
      s'.ifa.txs = push s.ifa.txs cols (rate now.2 s.tx delay) ∧
      arrayavg s'.ifa.rxs cols = some s'.ifa.rxavg ∧
      arrayavg s'.ifa.txs cols = some s'.ifa.txavg ∧
      s'.rx = base.1 ∧ s'.tx = base.2 ∧ s'.resize = s.resize := by
  obtain ⟨v1, h1⟩ := arrayavg_isSome (push s.ifa.rxs cols (rate now.1 s.rx delay)) cols hc
  obtain ⟨v2, h2⟩ := arrayavg_isSome (push s.ifa.txs cols (rate now.2 s.tx delay)) cols hc
  unfold getdata
  rw [if_pos h]
  simp only [h1, h2]
  exact ⟨_, rfl, rfl, rfl, h1, h2, rfl, rfl, rfl⟩

theorem getdata_second_skips (cols : Nat) (delay : Dbl) (now1 raw1 raw2 base2 : Int × Int)
    (h : raw1.1 = 0 ∨ raw1.2 = 0) :
    (getdata (initState cols) delay cols now1 raw1).bind
        (fun s1 => getdata s1 delay cols raw2 base2) =
      some { initState cols with rx := base2.1, tx := base2.2 } := by
  rw [getdata_skip (initState cols) delay cols now1 raw1 (by simp [initState])]
  simp only [Option.some_bind]
  rw [getdata_skip _ delay cols raw2 base2 (by
    simp only [ne_eq, not_and]
    intro h1 h2
    rcases h with h | h
    · exact absurd h h1
    · exact absurd h h2)]

theorem tail_append_getElem (l : List Int) (v : Int) (i : Nat) (h : i + 1 < l.length) :
    (l.tail ++ [v])[i]? = l[i + 1]? := by
  cases l with
  | nil => simp at h
  | cons a t =>
    simp only [List.length_cons] at h
    simp only [List.tail_cons, List.getElem?_cons_succ]
    rw [List.getElem?_append_left (by omega)]

/-! ## The claims about the histories and the sampler -/

/-- C1: on a tick of `getdata` that pushes (baseline counters set, no resize pending, width
at least 2) each history becomes the old history without its first element followed by the
new sample: the last element is the sample, every other element moved one place to the left,
and the length is unchanged. -/
theorem getdata_push_shifts (s : State) (delay : Dbl) (cols : Nat) (now base : Int × Int)
    (hW : 2 ≤ cols) (hrxs : s.ifa.rxs.length = cols) (htxs : s.ifa.txs.length = cols)
    (hrx : s.rx ≠ 0) (htx : s.tx ≠ 0) (hres : s.resize = false) :
    ∃ s', getdata s delay cols now base = some s' ∧
      s'.ifa.rxs = s.ifa.rxs.tail ++ [rate now.1 s.rx delay] ∧
      s'.ifa.txs = s.ifa.txs.tail ++ [rate now.2 s.tx delay] ∧
      s'.ifa.rxs.getLast? = some (rate now.1 s.rx delay) ∧
      s'.ifa.txs.getLast? = some (rate now.2 s.tx delay) ∧
      (∀ i, i + 1 < cols →
        s'.ifa.rxs[i]? = s.ifa.rxs[i + 1]? ∧ s'.ifa.txs[i]? = s.ifa.txs[i + 1]?) ∧
      s'.ifa.rxs.length = cols ∧ s'.ifa.txs.length = cols := by
  obtain ⟨s', h0, h1, h2, _⟩ := getdata_push_eq s delay cols now base hW ⟨hrx, htx, hres⟩
  rw [push_eq _ cols _ hrxs (by omega)] at h1
  rw [push_eq _ cols _ htxs (by omega)] at h2
  refine ⟨s', h0, h1, h2, ?_, ?_, ?_, ?_, ?_⟩
  · rw [h1]; simp
  · rw [h2]; simp
  · intro i hi
    rw [h1, h2]
    exact ⟨tail_append_getElem _ _ i (by omega), tail_append_getElem _ _ i (by omega)⟩
  · rw [h1]; simp; omega
  · rw [h2]; simp; omega

/-- C1, at the state `runningState` with delay 1 and the readings 15 and 27: the histories
`[1,2,3]` and `[4,5,6]` become `[2,3,10]` and `[5,6,20]`. -/
theorem getdata_push_shifts_witness :
    ∃ s', getdata runningState (Dbl.ofInt 1) 3 (15, 27) (15, 27) = some s' ∧
      s'.ifa.rxs = [2, 3, 10] ∧ s'.ifa.txs = [5, 6, 20] := by
  obtain ⟨s', h0, h1, h2, _⟩ := getdata_push_shifts runningState (Dbl.ofInt 1) 3 (15, 27)
    (15, 27) (by decide) (by decide) (by decide) (by decide) (by decide) (by decide)
  refine ⟨s', h0, ?_, ?_⟩
  · rw [h1]; decide
  · rw [h2]; decide

/-- C2: `arrayresize` applied to a history `old` of length `oldsize` gives a history of
length `newsize`: `old` itself when the sizes are equal, `newsize - oldsize` zeros followed by
`old` when growing, and the last `newsize` elements of `old` when shrinking. -/
theorem arrayresize_spec (old : List Int) (newsize : Nat) :
    (arrayresize old newsize old.length).length = newsize ∧
    (newsize = old.length → arrayresize old newsize old.length = old) ∧
    (newsize > old.length →
      arrayresize old newsize old.length = List.replicate (newsize - old.length) 0 ++ old) ∧
    (newsize < old.length →
      arrayresize old newsize old.length = old.drop (old.length - newsize)) := by
  refine ⟨arrayresize_length old newsize, ?_, ?_, ?_⟩
  · intro h
    unfold arrayresize
    rw [if_pos h]
  · intro h
    exact arrayresize_grow old newsize h
  · intro h
    exact arrayresize_shrink old newsize h

/-- C3: after any run of resizes to positive widths, started from a history of width at
least 1, the last element of the history (the one at index `width - 1`) is the last element
of the original history, and the history has the last width reported. -/
theorem resizeRun_keeps_last (array : List Int) (widths : List Nat) (hne : array ≠ [])
    (hpos : ∀ w ∈ widths, 0 < w) :
    (resizeRun array array.length widths).getLast? = some (array.getLast hne) ∧
    (resizeRun array array.length widths).length = widths.getLastD array.length ∧
    (resizeRun array array.length widths)[widths.getLastD array.length - 1]? =
      some (array.getLast hne) := by
  obtain ⟨h1, h2⟩ := resizeRun_spec widths array hne hpos
  rw [List.getLast?_eq_getLast array hne] at h1
  refine ⟨h1, h2, ?_⟩
  rw [← h2, ← List.getLast?_eq_getElem?]
  exact h1

/-- C3, for the history `[1,2,3]` and the widths 5, 2, 2, 7, 1 in turn: the sample 3 is
still the last one. -/
theorem resizeRun_keeps_last_witness :
    (resizeRun [1, 2, 3] 3 [5, 2, 2, 7, 1]).getLast? = some 3 ∧
      resizeRun [1, 2, 3] 3 [5, 2, 7] = [0, 0, 0, 0, 0, 2, 3] :=
  ⟨(resizeRun_keeps_last [1, 2, 3] [5, 2, 2, 7, 1] (by decide) (by decide)).1, by decide⟩

/-- C4 as stated fails: a first reading with an RX counter of 0 leaves the baseline unset, so
the second call pushes nothing although the counters moved on (by 1000 and 2000 over a delay
of 1): both histories are still all zero after it. -/
theorem getdata_zero_baseline_counterexample :
    ((getdata (initState 4) (Dbl.ofInt 1) 4 (0, 7) (0, 7)).bind
        (fun s1 => getdata s1 (Dbl.ofInt 1) 4 (1000, 2007) (1000, 2007))).map
        (fun s2 => (s2.ifa.rxs, s2.ifa.txs)) = some ([0, 0, 0, 0], [0, 0, 0, 0]) ∧
      rate 1000 0 (Dbl.ofInt 1) = 1000 ∧ rate 2007 7 (Dbl.ofInt 1) = 2000 := by
  decide

/-- C4, amended: when both counters of the first reading `raw1` are nonzero (and the width is
at least 2, no resize pending), the first call of `getdata` leaves both histories all zero and
the second call pushes exactly one sample into each, the value of the C expression
`(raw2 - raw1) / delay` converted to `long`, `raw2` being the reading the second call takes
first. -/
theorem getdata_first_second (cols : Nat) (delay : Dbl) (now1 raw1 raw2 base2 : Int × Int)
    (hW : 2 ≤ cols) (h1 : raw1.1 ≠ 0) (h2 : raw1.2 ≠ 0) :
    ∃ s1 s2, getdata (initState cols) delay cols now1 raw1 = some s1 ∧
      s1.ifa.rxs = List.replicate cols 0 ∧ s1.ifa.txs = List.replicate cols 0 ∧
      getdata s1 delay cols raw2 base2 = some s2 ∧
      s2.ifa.rxs = List.replicate (cols - 1) 0 ++ [rate raw2.1 raw1.1 delay] ∧
      s2.ifa.txs = List.replicate (cols - 1) 0 ++ [rate raw2.2 raw1.2 delay] := by
  have e1 : getdata (initState cols) delay cols now1 raw1 =
      some { initState cols with rx := raw1.1, tx := raw1.2 } :=
    getdata_skip _ _ _ _ _ (by simp [initState])
  obtain ⟨s2, g0, g1, g2, _⟩ := getdata_push_eq
    { initState cols with rx := raw1.1, tx := raw1.2 } delay cols raw2 base2 hW
    ⟨h1, h2, rfl⟩
  refine ⟨_, s2, e1, rfl, rfl, g0, ?_, ?_⟩
  · rw [g1, push_eq _ cols _ (by simp [initState]) (by omega)]
    obtain ⟨k, rfl⟩ : ∃ k, cols = k + 1 := ⟨cols - 1, by omega⟩
    simp [initState, List.replicate_succ]
  · rw [g2, push_eq _ cols _ (by simp [initState]) (by omega)]
    obtain ⟨k, rfl⟩ : ∃ k, cols = k + 1 := ⟨cols - 1, by omega⟩
    simp [initState, List.replicate_succ]

/-- C4 amended, at width 4 with the default delay of half a second and the readings
(1000, 2000) then (3000, 2500): the samples pushed are 4000 and 1000. -/
theorem getdata_first_second_witness :
    ∃ s1 s2, getdata (initState 4) halfSecond 4 (0, 0) (1000, 2000) = some s1 ∧
      getdata s1 halfSecond 4 (3000, 2500) (3001, 2501) = some s2 ∧
      s2.ifa.rxs = [0, 0, 0, 4000] ∧ s2.ifa.txs = [0, 0, 0, 1000] := by
  obtain ⟨s1, s2, a, _, _, b, c, d⟩ := getdata_first_second 4 halfSecond (0, 0) (1000, 2000)
    (3000, 2500) (3001, 2501) (by decide) (by decide) (by decide)
  refine ⟨s1, s2, a, b, ?_, ?_⟩
  · rw [c]; decide
  · rw [d]; decide

/-- C5: `arrayavg` does not return the sum divided by `W - 1` when the sum is negative. For
the history 0, 0, -1000, 200 of width 4 (sum -800) it returns 6148914691236516938, because
`sum /= (n-1)` with `size_t n` converts the sum to `unsigned long` and divides unsigned; the
quotient of the sum by 3 is -266 (C division) or -267 (rounding down). `getdata` produces this
history and stores this average: from idle histories with baseline 5000, the counter falls
back to 4000 (a counter reset, rate -1000) and then moves on to 4200 (rate 200). -/
theorem arrayavg_unsigned_division :
    arrayavg [0, 0, -1000, 200] 4 = some 6148914691236516938 ∧
      Int.tdiv ([0, 0, -1000, 200] : List Int).sum (4 - 1) = -266 ∧
      ([0, 0, -1000, 200] : List Int).sum / (4 - 1) = -267 ∧
      ((getdata idleState (Dbl.ofInt 1) 4 (4000, 7) (4000, 7)).bind
          (fun s1 => getdata s1 (Dbl.ofInt 1) 4 (4200, 7) (4200, 7))).map
          (fun s2 => (s2.ifa.rxs, s2.ifa.rxavg)) =
        some ([0, 0, -1000, 200], 6148914691236516938) := by
  decide

/-- On non-negative samples whose sum is below `2^63` `arrayavg` is the sum of the `W` samples
divided by `W - 1`; for `W` samples all equal to `k` that is `k * W / (W - 1)`. -/
theorem arrayavg_nonneg_spec (array : List Int) (n : Nat) (hn : n = array.length)
    (h2 : 2 ≤ n) (hpos : ∀ x ∈ array, 0 ≤ x) (hsum : array.sum < 2 ^ 63) :
    arrayavg array n = some (array.sum / ((n : Int) - 1)) ∧
      ∀ k : Int, (∀ x ∈ array, x = k) →
        arrayavg array n = some (k * (n : Int) / ((n : Int) - 1)) := by
  subst hn
  have h := arrayavg_of_nonneg array h2 hpos hsum
  refine ⟨h, ?_⟩
  intro k hk
  rw [h, sum_of_all_eq array k hk]

/-- Four samples of 100 have the average 400/3 = 133. -/
theorem arrayavg_nonneg_spec_example : arrayavg [100, 100, 100, 100] 4 = some 133 :=
  ((arrayavg_nonneg_spec [100, 100, 100, 100] 4 (by decide) (by decide) (by decide)
    (by decide)).2 100 (by decide)).trans (by decide)

/-- C6: for a history of non-negative samples `arraymax` is at least every sample, is itself
one of the samples (when there is one), and is 0 when all samples are 0. -/
theorem arraymax_spec (array : List Int) (n : Nat) (hn : n = array.length)
    (hpos : ∀ x ∈ array, 0 ≤ x) :
    (∀ x ∈ array, x ≤ arraymax array n) ∧
      (array ≠ [] → arraymax array n ∈ array) ∧
      ((∀ x ∈ array, x = 0) → arraymax array n = 0) := by
  subst hn
  rw [arraymax_eq_foldl]
  obtain ⟨h1, h2, h3⟩ := foldl_max_spec array 0
  refine ⟨h1, ?_, ?_⟩
  · intro hne
    rcases h3 with h3 | h3
    · obtain ⟨a, ha⟩ := List.exists_mem_of_ne_nil array hne
      have e : a = 0 := le_antisymm (by rw [← h3]; exact h1 a ha) (hpos a ha)
      rw [h3, ← e]
      exact ha
    · exact h3
  · intro hz
    rcases h3 with h3 | h3
    · exact h3
    · exact hz _ h3

/-- C6 at the history 0, 0, 50, 20: the maximum is 50. -/
theorem arraymax_spec_witness :
    arraymax [0, 0, 50, 20] 4 = 50 ∧ arraymax [0, 0, 50, 20] 4 ∈ ([0, 0, 50, 20] : List Int) :=
  ⟨by decide, (arraymax_spec [0, 0, 50, 20] 4 (by decide) (by decide)).2.1 (by decide)⟩

/-- C10: no floor is put on the width. On a terminal of one column `main` calls `getdata`
with `cols = 1`: the first call only sets the baseline, and in the first turn of the loop
`arrayavg` is called with `n = 1` and divides by `n - 1 = 0`. -/
theorem getdata_width_one_divides_by_zero :
    (getdata (initState 1) (Dbl.ofInt 1) 1 (5, 7) (5, 7)).isSome = true ∧
      (getdata (initState 1) (Dbl.ofInt 1) 1 (5, 7) (5, 7)).bind
        (fun s1 => loopBody s1 (Dbl.ofInt 1) false false 1 1 (10, 20) (10, 20)) = none ∧
      sizePred 1 = 0 ∧ arrayavg [5] 1 = none := by
  decide

/-- For a width of at least 2 the divisor `W - 1` is not zero: `getdata` returns, on a pushing
tick the averages it stores are the values `arrayavg` returns for the new histories at that
width, and a turn of the main loop returns. -/
theorem getdata_no_zero_division (s : State) (delay : Dbl) (cols : Nat) (now base : Int × Int)
    (hW : 2 ≤ cols) :
    sizePred cols ≠ 0 ∧
      (∃ s', getdata s delay cols now base = some s' ∧
        ((s.rx ≠ 0 ∧ s.tx ≠ 0 ∧ s.resize = false) →
          arrayavg s'.ifa.rxs cols = some s'.ifa.rxavg ∧
          arrayavg s'.ifa.txs cols = some s'.ifa.txavg)) ∧
      ∀ (syncgraphmax keyPressed : Bool) (COLSafter : Nat),
        (loopBody s delay syncgraphmax keyPressed cols COLSafter now base).isSome = true := by
  have hgd : ∀ t : State, ∃ t', getdata t delay cols now base = some t' ∧
      ((t.rx ≠ 0 ∧ t.tx ≠ 0 ∧ t.resize = false) →
        arrayavg t'.ifa.rxs cols = some t'.ifa.rxavg ∧
        arrayavg t'.ifa.txs cols = some t'.ifa.txavg) := by
    intro t
    by_cases h : t.rx ≠ 0 ∧ t.tx ≠ 0 ∧ t.resize = false
    · obtain ⟨t', h0, _, _, a1, a2, _⟩ := getdata_push_eq t delay cols now base hW h
      exact ⟨t', h0, fun _ => ⟨a1, a2⟩⟩
    · exact ⟨_, getdata_skip t delay cols now base h, fun h' => absurd h' h⟩
  refine ⟨?_, hgd s, ?_⟩
  · unfold sizePred
    rw [if_neg (show ¬ cols = 0 by omega)]
    omega
  · intro sync key COLSafter
    unfold loopBody
    simp only
    obtain ⟨s2, h2, _⟩ := hgd (if key = true then { s with resize := true } else s)
    rw [h2]
    simp only
    split_ifs <;> rfl

/-! ## The graph: proofs -/

theorem ofInt_shape (z : Int) :
    (∃ m e, Dbl.ofInt z = Dbl.fin (decide (z < 0)) m e) ∨
      Dbl.ofInt z = Dbl.inf (decide (z < 0)) := by
  rcases (round_spec (decide (z < 0)) z.natAbs 1 0 Nat.one_pos).2 with h | h
  · exact Or.inl h
  · exact Or.inr h.1

theorem fillTest_zero_max (s lines y : Int) (hs : s ≤ 0) (hl : 1 ≤ lines) :
    fillTest s (Dbl.ofInt 0) lines y = false := by
  unfold fillTest
  rw [ofInt_zero]
  rcases eq_or_lt_of_le hs with h0 | hneg
  · subst h0
    rw [ofInt_zero]
    have hd : Dbl.div (Dbl.fin false 0 0) (Dbl.fin false 0 0) = Dbl.nan := by decide
    rw [hd]
    have hm : ∀ x, Dbl.mul Dbl.nan x = Dbl.nan := by intro x; cases x <;> rfl
    have hsb : ∀ x, Dbl.sub x Dbl.nan = Dbl.nan := by intro x; cases x <;> rfl
    rw [hm, hsb]
    rfl
  · have hsn : decide (s < 0) = true := by simpa using hneg
    have hdiv : Dbl.div (Dbl.ofInt s) (Dbl.fin false 0 0) = Dbl.inf true := by
      rcases ofInt_nonzero s (by omega) with ⟨m, e, hm, h⟩ | h
      · rw [h, hsn]
        simp [Dbl.div, hm]
      · rw [h, hsn]
        simp [Dbl.div]
    have hln : decide (lines < 0) = false := by simp; omega
    have hmul : Dbl.mul (Dbl.inf true) (Dbl.ofInt lines) = Dbl.inf true := by
      rcases ofInt_nonzero lines (by omega) with ⟨m, e, hm, h⟩ | h
      · rw [h, hln]
        simp [Dbl.mul, hm]
      · rw [h, hln]
        simp [Dbl.mul]
    have hl1 : decide (lines - 1 < 0) = false := by simp; omega
    have hsub : Dbl.sub (Dbl.ofInt (lines - 1)) (Dbl.inf true) = Dbl.inf false := by
      rcases ofInt_shape (lines - 1) with ⟨m, e, h⟩ | h
      · rw [h]
        simp [Dbl.sub]
      · rw [h, hl1]
        simp [Dbl.sub]
    rw [hdiv, hmul, hsub]
    cases Dbl.ofInt y <;> rfl

theorem mem_printgraphw (array : List Int) (max : Dbl) (lines cols : Int) (y x : Nat) :
    (y, x) ∈ printgraphw array max lines cols ↔
      (y : Int) < lines ∧ (x : Int) < cols ∧ fillTest (array.getD x 0) max lines y = true := by
  unfold printgraphw
  simp only [List.mem_flatMap, List.mem_filterMap, List.mem_range]
  constructor
  · rintro ⟨y', hy', x', hx', h⟩
    split_ifs at h with hf
    · simp only [Option.some.injEq, Prod.mk.injEq] at h
      obtain ⟨rfl, rfl⟩ := h
      exact ⟨by omega, by omega, hf⟩
  · rintro ⟨hy, hx, hf⟩
    exact ⟨y, by omega, x, by omega, by rw [if_pos hf]⟩

theorem getD_mem_or_zero (array : List Int) (x : Nat) :
    array.getD x 0 ∈ array ∨ array.getD x 0 = 0 := by
  by_cases h : x < array.length
  · left
    rw [List.getD_eq_getElem _ _ h]
    exact List.getElem_mem h
  · right
    exact List.getD_eq_default _ _ (by omega)

theorem fillLevel_anti (lines M s s' : Int) (hl : 0 ≤ lines) (hM : 1 ≤ M) (h : s ≤ s') :
    fillLevel lines M s' ≤ fillLevel lines M s := by
  unfold fillLevel
  have hX := rnd_ge_one M hM
  have h1 : rnd (s : ℚ) ≤ rnd (s' : ℚ) := rnd_mono _ _ (by exact_mod_cast h)
  have h2 : rnd (s : ℚ) / rnd (M : ℚ) ≤ rnd (s' : ℚ) / rnd (M : ℚ) :=
    div_le_div_of_nonneg_right h1 (by linarith)
  have h3 := rnd_mono _ _ h2
  have hlq : (0 : ℚ) ≤ (lines : ℚ) := by exact_mod_cast hl
  have h4 := rnd_mono _ _ (mul_le_mul_of_nonneg_right h3 hlq)
  apply rnd_mono
  linarith

theorem fillLevel_full (lines M : Int) (hl1 : 0 ≤ lines) (hl2 : lines < 2 ^ 31) (hM : 1 ≤ M) :
    fillLevel lines M M = -1 := by
  unfold fillLevel
  have hX := rnd_ge_one M hM
  have h1 : rnd (M : ℚ) / rnd (M : ℚ) = ((1 : Nat) : ℚ) := by
    rw [div_self (by linarith)]
    norm_num
  rw [h1, rnd_natCast 1 (by norm_num)]
  have h2 : ((1 : Nat) : ℚ) * (lines : ℚ) = (lines : ℚ) := by norm_num
  rw [h2, rnd_int_small lines (by omega) (by omega)]
  have h3 : (lines : ℚ) - 1 - (lines : ℚ) = ((-1 : Int) : ℚ) := by push_cast; ring
  rw [h3, rnd_intCast (-1) (by norm_num)]
  norm_num

theorem fillLevel_empty (lines M : Int) (hl1 : 1 ≤ lines) (hl2 : lines < 2 ^ 31) :
    fillLevel lines M 0 = (lines : ℚ) - 1 := by
  unfold fillLevel
  simp only [Int.cast_zero, rnd_zero, zero_div, zero_mul, sub_zero]
  have h3 : (lines : ℚ) - 1 = ((lines - 1 : Int) : ℚ) := by push_cast; ring
  rw [h3, rnd_int_small (lines - 1) (by omega) (by omega)]

/-! ## The graph: rounding error and the number of filled rows -/

theorem rne_err (n d : Nat) (hd : 0 < d) : |((rne n d : Nat) : ℚ) - (n : ℚ) / d| ≤ 1 / 2 := by
  have hdq : (0 : ℚ) < d := by exact_mod_cast hd
  have e0 : ((d * (n / d) + n % d : Nat) : ℚ) = (n : ℚ) := by
    exact_mod_cast congrArg (fun z : Nat => (z : ℚ)) (Nat.div_add_mod n d)
  have hx : (n : ℚ) / d = ((n / d : Nat) : ℚ) + ((n % d : Nat) : ℚ) / d := by
    rw [← e0]
    push_cast
    field_simp
    ring
  have hr : (n % d) < d := Nat.mod_lt n hd
  have hr0 : (0 : ℚ) ≤ ((n % d : Nat) : ℚ) / d := by positivity
  have hr1 : ((n % d : Nat) : ℚ) / d < 1 := by
    rw [div_lt_one hdq]
    exact_mod_cast hr
  rw [hx, abs_le]
  unfold rne
  simp only
  split_ifs with h1 h2 h3
  · have h1' : (2 : ℚ) * ((n % d : Nat) : ℚ) < d := by exact_mod_cast h1
    have : ((n % d : Nat) : ℚ) / d ≤ 1 / 2 := by
      rw [div_le_iff₀ hdq]; linarith
    constructor <;> linarith
  · have h2' : (d : ℚ) < 2 * ((n % d : Nat) : ℚ) := by exact_mod_cast h2
    have : 1 / 2 ≤ ((n % d : Nat) : ℚ) / d := by
      rw [le_div_iff₀ hdq]; linarith
    push_cast
    constructor <;> linarith
  · have h1' : (d : ℚ) ≤ 2 * ((n % d : Nat) : ℚ) := by exact_mod_cast not_lt.mp h1
    have h2' : (2 : ℚ) * ((n % d : Nat) : ℚ) ≤ d := by exact_mod_cast not_lt.mp h2
    have : ((n % d : Nat) : ℚ) / d ≤ 1 / 2 := by
      rw [div_le_iff₀ hdq]; linarith
    constructor <;> linarith
  · have h1' : (d : ℚ) ≤ 2 * ((n % d : Nat) : ℚ) := by exact_mod_cast not_lt.mp h1
    have : 1 / 2 ≤ ((n % d : Nat) : ℚ) / d := by
      rw [le_div_iff₀ hdq]; linarith
    push_cast
    constructor <;> linarith

theorem rneScaled_err (n d : Nat) (t : Int) (hd : 0 < d) :
    |((rneScaled n d t : Nat) : ℚ) - qval n d t| ≤ 1 / 2 := by
  unfold rneScaled
  rw [← qval_frac]
  exact rne_err _ _ (by positivity)

theorem roundMag_err (n d : Nat) (s : Int) (hd : 0 < d) :
    |fval (roundMag n d s).1 (roundMag n d s).2 - qval n d s| ≤
      (2 : ℚ) ^ (roundMag n d s).2 / 2 := by
  have h := rneScaled_err n d (s - (roundMag n d s).2) hd
  rw [qval_shift] at h
  have hp := two_zpow_pos (roundMag n d s).2
  have hfst : (roundMag n d s).1 = rneScaled n d (s - (roundMag n d s).2) := rfl
  have e : fval (roundMag n d s).1 (roundMag n d s).2 - qval n d s =
      (((roundMag n d s).1 : ℚ) - qval n d s * (2 : ℚ) ^ (-(roundMag n d s).2)) *
        (2 : ℚ) ^ (roundMag n d s).2 := by
    unfold fval
    rw [sub_mul, mul_assoc, ← zpow_add₀ (by norm_num : (2 : ℚ) ≠ 0)]
    simp
  rw [e, abs_mul, abs_of_pos hp, ← hfst] at *
  calc |((roundMag n d s).1 : ℚ) - qval n d s * (2 : ℚ) ^ (-(roundMag n d s).2)| *
        (2 : ℚ) ^ (roundMag n d s).2
      ≤ 1 / 2 * (2 : ℚ) ^ (roundMag n d s).2 := mul_le_mul_of_nonneg_right h hp.le
    _ = (2 : ℚ) ^ (roundMag n d s).2 / 2 := by ring

theorem two_zpow_le_imp {a b : Int} (h : (2 : ℚ) ^ a ≤ (2 : ℚ) ^ b) : a ≤ b :=
  (zpow_le_zpow_iff_right₀ (by norm_num : (1 : ℚ) < 2)).mp h

/-- The error of a rounding: half a unit in the last place, the exponent of the last place
being `max E (-1022) - 52` for `2^E ≤ v < 2^(E+1)`. -/
theorem rnd_err_pos (v : ℚ) (hv : 0 < v) (hv2 : v ≤ (2 : ℚ) ^ (1023 : Int)) :
    ∃ E : Int, (2 : ℚ) ^ E ≤ v ∧ v < (2 : ℚ) ^ (E + 1) ∧
      |rnd v - v| ≤ (2 : ℚ) ^ (max E (-1022) - 52) / 2 := by
  have hn : 0 < v.num.natAbs := by
    have : 0 < v.num := Rat.num_pos.mpr hv
    omega
  have hd := Rat.den_pos v
  have hq := qval_num_den v hv.le
  obtain ⟨b1, b2⟩ := qval_bounds v.num.natAbs v.den 0 hn hd
  rw [hq] at b1 b2
  refine ⟨expo v.num.natAbs v.den + 0, b1, b2, ?_⟩
  have hr : rnd v = rmag v.num.natAbs v.den 0 := rnd_of_nonneg v hv.le
  have hb := rnd_abs_le v 1023 (by norm_num) (by norm_num) (by rwa [abs_of_pos hv])
  have hlt : rmag v.num.natAbs v.den 0 < (2 : ℚ) ^ (1024 : Int) := by
    rw [← hr]
    have := (abs_le.mp hb).2
    linarith [two_1023_lt]
  have hf : rmag v.num.natAbs v.den 0 =
      fval (roundMag v.num.natAbs v.den 0).1 (roundMag v.num.natAbs v.den 0).2 := by
    unfold rmag at hlt ⊢
    rw [if_neg (by omega)] at hlt ⊢
    rcases min_choice (fval (roundMag v.num.natAbs v.den 0).1 (roundMag v.num.natAbs v.den 0).2)
      ((2 : ℚ) ^ (1024 : Int)) with h | h
    · exact h
    · rw [h] at hlt
      exact absurd hlt (lt_irrefl _)
  have he := roundMag_err v.num.natAbs v.den 0 hd
  rw [hq, ← hf, ← hr, roundMag_snd] at he
  exact he

theorem rnd_err_rel (v : ℚ) (hv : (2 : ℚ) ^ (-1022 : Int) ≤ v)
    (hv2 : v ≤ (2 : ℚ) ^ (1023 : Int)) : |rnd v - v| ≤ v * (2 : ℚ) ^ (-53 : Int) := by
  have hpos : 0 < v := lt_of_lt_of_le (two_zpow_pos _) hv
  obtain ⟨E, b1, b2, he⟩ := rnd_err_pos v hpos hv2
  have hE : -1022 ≤ E := by
    have := two_zpow_lt_imp (lt_of_le_of_lt hv b2)
    omega
  rw [max_eq_left hE] at he
  have e1 : (2 : ℚ) ^ (E - 52) / 2 = (2 : ℚ) ^ E * (2 : ℚ) ^ (-53 : Int) := by
    rw [← zpow_add₀ (by norm_num : (2 : ℚ) ≠ 0)]
    have : E - 52 = (E + -53) + 1 := by ring
    rw [this, zpow_add_one₀ (by norm_num : (2 : ℚ) ≠ 0)]
    ring
  rw [e1] at he
  exact le_trans he (mul_le_mul_of_nonneg_right b1 (two_zpow_pos _).le)

theorem rnd_err_abs (v : ℚ) (j : Int) (hj : -1022 ≤ j) (hj2 : j ≤ 1023)
    (hv : |v| ≤ (2 : ℚ) ^ j) : |rnd v - v| ≤ (2 : ℚ) ^ (j - 53) := by
  have key : ∀ w : ℚ, 0 < w → w ≤ (2 : ℚ) ^ j → |rnd w - w| ≤ (2 : ℚ) ^ (j - 53) := by
    intro w hw hwj
    obtain ⟨E, b1, _, he⟩ := rnd_err_pos w hw (le_trans hwj (two_zpow_le hj2))
    have hE : E ≤ j := two_zpow_le_imp (le_trans b1 hwj)
    have e1 : (2 : ℚ) ^ (max E (-1022) - 52) / 2 = (2 : ℚ) ^ (max E (-1022) - 53) := by
      have : max E (-1022) - 52 = (max E (-1022) - 53) + 1 := by ring
      rw [this, zpow_add_one₀ (by norm_num : (2 : ℚ) ≠ 0)]
      ring
    rw [e1] at he
    exact le_trans he (two_zpow_le (by omega))
  rcases lt_trichotomy v 0 with h | h | h
  · have := key (-v) (by linarith) (by rwa [abs_of_neg h] at hv)
    rw [rnd_neg] at this
    rwa [show rnd v - v = -(-rnd v - -v) by ring, abs_neg]
  · subst h
    simp [rnd_zero]
    exact (two_zpow_pos _).le
  · exact key v h (by rwa [abs_of_pos h] at hv)

theorem two_zpow_neg_nat (k : Nat) : (2 : ℚ) ^ (-(k : Int)) = 1 / 2 ^ k := by
  rw [zpow_neg, zpow_natCast, one_div]

theorem rnd_rel_bounds (v : ℚ) (j k : Int) (hj : -1022 ≤ j) (hk : k ≤ 1023)
    (h1 : (2 : ℚ) ^ j ≤ v) (h2 : v ≤ (2 : ℚ) ^ k) :
    v * (1 - 1 / 2 ^ 53) ≤ rnd v ∧ rnd v ≤ v * (1 + 1 / 2 ^ 53) := by
  have h := rnd_err_rel v (le_trans (two_zpow_le hj) h1) (le_trans h2 (two_zpow_le hk))
  have hu : (2 : ℚ) ^ (-53 : Int) = 1 / 2 ^ 53 := two_zpow_neg_nat 53
  rw [hu, abs_le] at h
  constructor <;> linarith [h.1, h.2]

/-- For a sample `s` with `1 ≤ s ≤ M` the value of `s / max * lines` computed in doubles is
within `2^-19` of the exact `s * lines / M`. -/
theorem scaled_sample_close (lines M s : Int) (hl1 : 1 ≤ lines) (hl2 : lines < 2 ^ 31)
    (hM2 : M < 2 ^ 63) (hs1 : 1 ≤ s) (hsM : s ≤ M) :
    |rnd (rnd (rnd (s : ℚ) / rnd (M : ℚ)) * (lines : ℚ)) - (s : ℚ) * (lines : ℚ) / (M : ℚ)| ≤
      1 / 2 ^ 19 := by
  have hsq1 : (1 : ℚ) ≤ (s : ℚ) := by exact_mod_cast hs1
  have hsq2 : (s : ℚ) ≤ (M : ℚ) := by exact_mod_cast hsM
  have hMq2 : (M : ℚ) ≤ 2 ^ 63 := by
    have : M ≤ 2 ^ 63 := by omega
    exact_mod_cast this
  have hMq1 : (1 : ℚ) ≤ (M : ℚ) := le_trans hsq1 hsq2
  have hlq1 : (1 : ℚ) ≤ (lines : ℚ) := by exact_mod_cast hl1
  have hlq2 : (lines : ℚ) ≤ 2 ^ 31 := by
    have : lines ≤ 2 ^ 31 := by omega
    exact_mod_cast this
  have p63 : (2 : ℚ) ^ (63 : Int) = 2 ^ 63 := by norm_num
  have p0 : (2 : ℚ) ^ (0 : Int) = 1 := by norm_num
  -- the two conversions
  obtain ⟨a1, a2⟩ := rnd_rel_bounds (s : ℚ) 0 63 (by norm_num) (by norm_num)
    (by rw [p0]; exact hsq1) (by rw [p63]; exact le_trans hsq2 hMq2)
  obtain ⟨x1, x2⟩ := rnd_rel_bounds (M : ℚ) 0 63 (by norm_num) (by norm_num)
    (by rw [p0]; exact hMq1) (by rw [p63]; exact hMq2)
  set a := rnd (s : ℚ) with ha
  set X := rnd (M : ℚ) with hX
  have hXpos : 0 < X :=
    lt_of_lt_of_le (mul_pos (by linarith) (by norm_num)) x1
  have hapos : 0 < a :=
    lt_of_lt_of_le (mul_pos (by linarith) (by norm_num)) a1
  -- the quotient
  set t := (s : ℚ) / (M : ℚ) with ht
  have htpos : 0 < t := by positivity
  have ht1 : t ≤ 1 := by rw [ht, div_le_one (by linarith)]; exact hsq2
  have ht0 : 1 / 2 ^ 63 ≤ t := by
    rw [ht, div_le_div_iff₀ (by positivity) (by linarith)]
    calc (1 : ℚ) * (M : ℚ) ≤ 1 * 2 ^ 63 := by linarith
      _ ≤ (s : ℚ) * 2 ^ 63 := mul_le_mul_of_nonneg_right hsq1 (by positivity)
  have hsM' : (s : ℚ) = t * (M : ℚ) := by rw [ht]; field_simp
  have q1 : t * ((1 - 1 / 2 ^ 53) / (1 + 1 / 2 ^ 53)) ≤ a / X := by
    rw [le_div_iff₀ hXpos]
    have e : t * ((1 - 1 / 2 ^ 53) / (1 + 1 / 2 ^ 53)) * X ≤
        t * ((1 - 1 / 2 ^ 53) / (1 + 1 / 2 ^ 53)) * ((M : ℚ) * (1 + 1 / 2 ^ 53)) :=
      mul_le_mul_of_nonneg_left x2 (by positivity)
    have e2 : t * ((1 - 1 / 2 ^ 53) / (1 + 1 / 2 ^ 53)) * ((M : ℚ) * (1 + 1 / 2 ^ 53)) =
        (s : ℚ) * (1 - 1 / 2 ^ 53) := by
      rw [hsM']; field_simp; ring
    linarith
  have q2 : a / X ≤ t * ((1 + 1 / 2 ^ 53) / (1 - 1 / 2 ^ 53)) := by
    rw [div_le_iff₀ hXpos]
    have e : t * ((1 + 1 / 2 ^ 53) / (1 - 1 / 2 ^ 53)) * ((M : ℚ) * (1 - 1 / 2 ^ 53)) ≤
        t * ((1 + 1 / 2 ^ 53) / (1 - 1 / 2 ^ 53)) * X :=
      mul_le_mul_of_nonneg_left x1 (by positivity)
    have e2 : t * ((1 + 1 / 2 ^ 53) / (1 - 1 / 2 ^ 53)) * ((M : ℚ) * (1 - 1 / 2 ^ 53)) =
        (s : ℚ) * (1 + 1 / 2 ^ 53) := by
      rw [hsM']; field_simp; ring
    linarith
  set q := a / X with hq
  have hqlo : (2 : ℚ) ^ (-65 : Int) ≤ q := by
    have e : (2 : ℚ) ^ (-65 : Int) = 1 / 2 ^ 65 := two_zpow_neg_nat 65
    rw [e]
    have : (1 : ℚ) / 2 ^ 65 ≤ t * ((1 - 1 / 2 ^ 53) / (1 + 1 / 2 ^ 53)) := by
      have c : (1 : ℚ) / 2 ≤ (1 - 1 / 2 ^ 53) / (1 + 1 / 2 ^ 53) := by norm_num
      calc (1 : ℚ) / 2 ^ 65 ≤ 1 / 2 ^ 63 * (1 / 2) := by norm_num
        _ ≤ t * ((1 - 1 / 2 ^ 53) / (1 + 1 / 2 ^ 53)) :=
          mul_le_mul ht0 c (by norm_num) htpos.le
    linarith
  have hqhi : q ≤ (2 : ℚ) ^ (1 : Int) := by
    have c : (1 + 1 / 2 ^ 53) / (1 - 1 / 2 ^ 53) ≤ (2 : ℚ) := by norm_num
    have : t * ((1 + 1 / 2 ^ 53) / (1 - 1 / 2 ^ 53)) ≤ 1 * 2 :=
      mul_le_mul ht1 c (by norm_num) (by norm_num)
    rw [zpow_one]
    linarith
  obtain ⟨b1, b2⟩ := rnd_rel_bounds q (-65) 1 (by norm_num) (by norm_num) hqlo hqhi
  set b := rnd q with hb
  have hqpos : 0 < q := lt_of_lt_of_le (two_zpow_pos _) hqlo
  have hbpos : 0 < b :=
    lt_of_lt_of_le (mul_pos hqpos (by norm_num)) b1
  -- the product
  have hplo : (2 : ℚ) ^ (-66 : Int) ≤ b * (lines : ℚ) := by
    have e : (2 : ℚ) ^ (-66 : Int) = 1 / 2 ^ 66 := two_zpow_neg_nat 66
    have e65 : (2 : ℚ) ^ (-65 : Int) = 1 / 2 ^ 65 := two_zpow_neg_nat 65
    rw [e]
    rw [e65] at hqlo
    have h3 : (1 : ℚ) / 2 ^ 66 ≤ b := by
      calc (1 : ℚ) / 2 ^ 66 ≤ 1 / 2 ^ 65 * (1 - 1 / 2 ^ 53) := by norm_num
        _ ≤ q * (1 - 1 / 2 ^ 53) := mul_le_mul_of_nonneg_right hqlo (by norm_num)
        _ ≤ b := b1
    calc (1 : ℚ) / 2 ^ 66 ≤ b := h3
      _ = b * 1 := (mul_one b).symm
      _ ≤ b * (lines : ℚ) := mul_le_mul_of_nonneg_left hlq1 hbpos.le
  have hphi : b * (lines : ℚ) ≤ (2 : ℚ) ^ (33 : Int) := by
    have e : (2 : ℚ) ^ (33 : Int) = 4 * 2 ^ 31 := by norm_num
    rw [e]
    rw [zpow_one] at hqhi
    have h3 : b ≤ 4 := by
      calc b ≤ q * (1 + 1 / 2 ^ 53) := b2
        _ ≤ 2 * (1 + 1 / 2 ^ 53) := mul_le_mul_of_nonneg_right hqhi (by norm_num)
        _ ≤ 4 := by norm_num
    exact mul_le_mul h3 hlq2 (by linarith) (by norm_num)
  obtain ⟨c1, c2⟩ := rnd_rel_bounds (b * (lines : ℚ)) (-66) 33 (by norm_num) (by norm_num)
    hplo hphi
  set c := rnd (b * (lines : ℚ)) with hc
  -- assemble
  have hT : (s : ℚ) * (lines : ℚ) / (M : ℚ) = t * (lines : ℚ) := by rw [ht]; ring
  rw [hT]
  have hTpos : 0 ≤ t * (lines : ℚ) := by positivity
  have hTle : t * (lines : ℚ) ≤ 2 ^ 31 := by
    calc t * (lines : ℚ) ≤ 1 * 2 ^ 31 := mul_le_mul ht1 hlq2 (by linarith) (by norm_num)
      _ = 2 ^ 31 := one_mul _
  have up : c ≤ t * (lines : ℚ) *
      ((1 + 1 / 2 ^ 53) / (1 - 1 / 2 ^ 53) * (1 + 1 / 2 ^ 53) * (1 + 1 / 2 ^ 53)) := by
    have s1 : b ≤ t * ((1 + 1 / 2 ^ 53) / (1 - 1 / 2 ^ 53)) * (1 + 1 / 2 ^ 53) :=
      le_trans b2 (mul_le_mul_of_nonneg_right q2 (by norm_num))
    have s2 : b * (lines : ℚ) ≤
        t * ((1 + 1 / 2 ^ 53) / (1 - 1 / 2 ^ 53)) * (1 + 1 / 2 ^ 53) * (lines : ℚ) :=
      mul_le_mul_of_nonneg_right s1 (by linarith)
    have s3 : c ≤ t * ((1 + 1 / 2 ^ 53) / (1 - 1 / 2 ^ 53)) * (1 + 1 / 2 ^ 53) * (lines : ℚ) *
        (1 + 1 / 2 ^ 53) :=
      le_trans c2 (mul_le_mul_of_nonneg_right s2 (by norm_num))
    linarith [s3]
  have lo : t * (lines : ℚ) *
      ((1 - 1 / 2 ^ 53) / (1 + 1 / 2 ^ 53) * (1 - 1 / 2 ^ 53) * (1 - 1 / 2 ^ 53)) ≤ c := by
    have s1 : t * ((1 - 1 / 2 ^ 53) / (1 + 1 / 2 ^ 53)) * (1 - 1 / 2 ^ 53) ≤ b :=
      le_trans (mul_le_mul_of_nonneg_right q1 (by norm_num)) b1
    have s2 : t * ((1 - 1 / 2 ^ 53) / (1 + 1 / 2 ^ 53)) * (1 - 1 / 2 ^ 53) * (lines : ℚ) ≤
        b * (lines : ℚ) :=
      mul_le_mul_of_nonneg_right s1 (by linarith)
    have s3 : t * ((1 - 1 / 2 ^ 53) / (1 + 1 / 2 ^ 53)) * (1 - 1 / 2 ^ 53) * (lines : ℚ) *
        (1 - 1 / 2 ^ 53) ≤ c :=
      le_trans (mul_le_mul_of_nonneg_right s2 (by norm_num)) c1
    linarith [s3]
  have k1 : (1 + 1 / 2 ^ 53) / (1 - 1 / 2 ^ 53) * (1 + 1 / 2 ^ 53) * (1 + 1 / 2 ^ 53) ≤
      (1 : ℚ) + 1 / 2 ^ 50 := by norm_num
  have k2 : (1 : ℚ) - 1 / 2 ^ 50 ≤
      (1 - 1 / 2 ^ 53) / (1 + 1 / 2 ^ 53) * (1 - 1 / 2 ^ 53) * (1 - 1 / 2 ^ 53) := by norm_num
  have up' : c ≤ t * (lines : ℚ) * (1 + 1 / 2 ^ 50) :=
    le_trans up (mul_le_mul_of_nonneg_left k1 hTpos)
  have lo' : t * (lines : ℚ) * (1 - 1 / 2 ^ 50) ≤ c :=
    le_trans (mul_le_mul_of_nonneg_left k2 hTpos) lo
  have tiny : t * (lines : ℚ) * (1 / 2 ^ 50) ≤ 1 / 2 ^ 19 := by
    have : t * (lines : ℚ) * (1 / 2 ^ 50) ≤ 2 ^ 31 * (1 / 2 ^ 50) :=
      mul_le_mul_of_nonneg_right hTle (by norm_num)
    have e : (2 : ℚ) ^ 31 * (1 / 2 ^ 50) = 1 / 2 ^ 19 := by norm_num
    linarith
  have e1 : t * (lines : ℚ) * (1 + 1 / 2 ^ 50) =
      t * (lines : ℚ) + t * (lines : ℚ) * (1 / 2 ^ 50) := by ring
  have e2 : t * (lines : ℚ) * (1 - 1 / 2 ^ 50) =
      t * (lines : ℚ) - t * (lines : ℚ) * (1 / 2 ^ 50) := by ring
  rw [e1] at up'
  rw [e2] at lo'
  rw [abs_le]
  constructor <;> linarith

theorem fillLevel_close (lines M s : Int) (hl1 : 1 ≤ lines) (hl2 : lines < 2 ^ 31)
    (hM2 : M < 2 ^ 63) (hs0 : 0 ≤ s) (hsM : s ≤ M) (hM1 : 1 ≤ M) :
    |fillLevel lines M s - ((lines : ℚ) - 1 - (s : ℚ) * (lines : ℚ) / (M : ℚ))| ≤
      1 / 2 ^ 18 := by
  rcases eq_or_lt_of_le hs0 with h0 | hpos
  · subst h0
    rw [fillLevel_empty lines M hl1 hl2]
    simp
  · have hc := scaled_sample_close lines M s hl1 hl2 hM2 (by omega) hsM
    unfold fillLevel
    set c := rnd (rnd (rnd (s : ℚ) / rnd (M : ℚ)) * (lines : ℚ)) with hcdef
    set T := (s : ℚ) * (lines : ℚ) / (M : ℚ) with hT
    have hlq1 : (1 : ℚ) ≤ (lines : ℚ) := by exact_mod_cast hl1
    have hlq2 : (lines : ℚ) ≤ 2 ^ 31 := by
      have : lines ≤ 2 ^ 31 := by omega
      exact_mod_cast this
    have hT0 : 0 ≤ T := by
      have h1 : (0 : ℚ) ≤ (s : ℚ) := by exact_mod_cast hs0
      have h2 : (0 : ℚ) < (M : ℚ) := by exact_mod_cast (by omega : (0 : Int) < M)
      rw [hT]
      positivity
    have hT1 : T ≤ 2 ^ 31 := by
      have h2 : (0 : ℚ) < (M : ℚ) := by exact_mod_cast (by omega : (0 : Int) < M)
      have h3 : (s : ℚ) ≤ (M : ℚ) := by exact_mod_cast hsM
      rw [hT, div_le_iff₀ h2]
      calc (s : ℚ) * (lines : ℚ) ≤ (M : ℚ) * (lines : ℚ) :=
            mul_le_mul_of_nonneg_right h3 (by linarith)
        _ ≤ (M : ℚ) * 2 ^ 31 := mul_le_mul_of_nonneg_left hlq2 h2.le
        _ = 2 ^ 31 * (M : ℚ) := mul_comm _ _
    obtain ⟨c1, c2⟩ := abs_le.mp hc
    have hD : |(lines : ℚ) - 1 - c| ≤ (2 : ℚ) ^ (33 : Int) := by
      have e : (2 : ℚ) ^ (33 : Int) = 2 ^ 33 := by norm_num
      rw [e, abs_le]
      constructor
      · have : (2 : ℚ) ^ 31 + 1 / 2 ^ 19 ≤ 2 ^ 33 := by norm_num
        linarith
      · have : (2 : ℚ) ^ 31 ≤ 2 ^ 33 := by norm_num
        have : (0 : ℚ) ≤ 1 / 2 ^ 19 := by norm_num
        linarith
    have hr := rnd_err_abs ((lines : ℚ) - 1 - c) 33 (by norm_num) (by norm_num) hD
    have e20 : (2 : ℚ) ^ ((33 : Int) - 53) = 1 / 2 ^ 20 := two_zpow_neg_nat 20
    rw [e20] at hr
    obtain ⟨r1, r2⟩ := abs_le.mp hr
    have e18 : (1 : ℚ) / 2 ^ 19 + 1 / 2 ^ 20 ≤ 1 / 2 ^ 18 := by norm_num
    rw [abs_le]
    constructor <;> linarith

theorem countP_row (y x n : Nat) (P : Nat → Bool) :
    List.countP (fun c : Nat × Nat => c.2 == x)
        ((List.range n).filterMap (fun x' => if P x' then some (y, x') else none)) =
      if x < n ∧ P x = true then 1 else 0 := by
  induction n with
  | zero => simp
  | succ n ih =>
    rw [List.range_succ, List.filterMap_append, List.countP_append, ih]
    by_cases hP : P n = true
    · by_cases hx : n = x
      · subst hx
        simp [hP]
      · have hx' : ¬ x = n := fun h => hx h.symm
        by_cases h1 : x < n
        · simp [hP, hx, h1, Nat.lt_succ_of_lt h1]
        · have h2 : ¬ x < n + 1 := by omega
          simp [hP, hx, h1, h2]
    · by_cases hx : n = x
      · subst hx
        simp [hP]
      · by_cases h1 : x < n
        · simp [hP, h1, Nat.lt_succ_of_lt h1]
        · have h2 : ¬ x < n + 1 := by omega
          simp [hP, h1, h2]

theorem countP_rows (x : Nat) (row : Nat → List (Nat × Nat)) (g : Nat → Bool)
    (h : ∀ y, List.countP (fun c : Nat × Nat => c.2 == x) (row y) = if g y = true then 1 else 0)
    (ys : List Nat) :
    List.countP (fun c : Nat × Nat => c.2 == x) (ys.flatMap row) = ys.countP g := by
  induction ys with
  | nil => simp
  | cons y t ih =>
    rw [List.flatMap_cons, List.countP_append, ih, h y, List.countP_cons]
    omega

theorem columnCount_printgraphw (array : List Int) (max : Dbl) (lines cols : Int) (x : Nat)
    (hx : (x : Int) < cols) :
    columnCount (printgraphw array max lines cols) x =
      (List.range lines.toNat).countP
        (fun y : Nat => fillTest (array.getD x 0) max lines (y : Int)) := by
  unfold columnCount printgraphw
  apply countP_rows
  intro y
  rw [countP_row y x cols.toNat (fun x' => fillTest (array.getD x' 0) max lines y)]
  have hx' : x < cols.toNat := by omega
  simp [hx']

theorem countP_range_threshold (L : Nat) (θ : Int) :
    (List.range L).countP (fun y : Nat => decide (θ ≤ (y : Int))) = L - min L θ.toNat := by
  induction L with
  | zero => simp
  | succ n ih =>
    rw [List.range_succ, List.countP_append, ih]
    by_cases h : θ ≤ (n : Int)
    · simp [h]
      omega
    · simp [h]
      omega

theorem columnCount_threshold (array : List Int) (M lines cols : Int) (x : Nat)
    (hx : (x : Int) < cols) (hl2 : lines < 2 ^ 31) (hM1 : 0 < M) (hM2 : M < 2 ^ 63)
    (hs1 : 0 ≤ array.getD x 0) (hs2 : array.getD x 0 < 2 ^ 63) :
    columnCount (printgraphw array (Dbl.ofInt M) lines cols) x =
      lines.toNat - min lines.toNat (⌊fillLevel lines M (array.getD x 0)⌋ + 1).toNat := by
  rw [columnCount_printgraphw array _ lines cols x hx, ← countP_range_threshold]
  apply List.countP_congr
  intro y hy
  have hy' : (y : Int) < lines := by
    have := List.mem_range.mp hy
    omega
  rw [fillTest_iff lines M _ y (by omega) hl2 (by omega) hM2 hs1 hs2 (by omega) (by omega)]
  simp only [decide_eq_true_eq]
  rw [← Int.floor_lt]
  omega

theorem columnCount_bounds (array : List Int) (M lines cols : Int) (x : Nat)
    (hx : (x : Int) < cols) (hl1 : 1 ≤ lines) (hl2 : lines < 2 ^ 31) (hM1 : 0 < M)
    (hM2 : M < 2 ^ 63) (hs1 : 0 ≤ array.getD x 0) (hs2 : array.getD x 0 < 2 ^ 63) :
    exactRows lines M (array.getD x 0) - 1 ≤
        (columnCount (printgraphw array (Dbl.ofInt M) lines cols) x : Int) ∧
      (columnCount (printgraphw array (Dbl.ofInt M) lines cols) x : Int) ≤
        exactRows lines M (array.getD x 0) + 1 := by
  rw [columnCount_threshold array M lines cols x hx hl2 hM1 hM2 hs1 hs2]
  unfold exactRows
  set s := array.getD x 0 with hs
  set T := (s : ℚ) * (lines : ℚ) / (M : ℚ) with hT
  set D := fillLevel lines M s with hD
  have hMq : (0 : ℚ) < (M : ℚ) := by exact_mod_cast hM1
  have hlq : (1 : ℚ) ≤ (lines : ℚ) := by exact_mod_cast hl1
  have hsq : (0 : ℚ) ≤ (s : ℚ) := by exact_mod_cast hs1
  have hT0 : 0 ≤ T := by rw [hT]; positivity
  have hc0 : 0 ≤ ⌈T⌉ := Int.ceil_nonneg hT0
  have hc1 : T ≤ (⌈T⌉ : ℚ) := Int.le_ceil T
  have hc2 : (⌈T⌉ : ℚ) < T + 1 := Int.ceil_lt_add_one T
  rcases le_or_lt s M with hsM | hsM
  · have hclose := fillLevel_close lines M s hl1 hl2 hM2 hs1 hsM (by omega)
    rw [← hD, ← hT] at hclose
    obtain ⟨d1, d2⟩ := abs_le.mp hclose
    have hsmall : (1 : ℚ) / 2 ^ 18 ≤ 1 := by norm_num
    have up : ⌊D⌋ ≤ lines - ⌈T⌉ := by
      have : ⌊D⌋ < lines - ⌈T⌉ + 1 := by
        rw [Int.floor_lt]
        push_cast
        linarith
      omega
    have lo : lines - ⌈T⌉ - 2 ≤ ⌊D⌋ := by
      rw [Int.le_floor]
      push_cast
      linarith
    omega
  · have hDle : D ≤ -1 := by
      have := fillLevel_anti lines M M s (by omega) (by omega) hsM.le
      rw [fillLevel_full lines M (by omega) hl2 (by omega)] at this
      exact this
    have hfl : ⌊D⌋ < 0 := by
      rw [Int.floor_lt]
      push_cast
      linarith
    have hTl : (lines : ℚ) ≤ T := by
      have h3 : (M : ℚ) ≤ (s : ℚ) := by exact_mod_cast hsM.le
      rw [hT, le_div_iff₀ hMq]
      calc (lines : ℚ) * (M : ℚ) ≤ (lines : ℚ) * (s : ℚ) :=
            mul_le_mul_of_nonneg_left h3 (by linarith)
        _ = (s : ℚ) * (lines : ℚ) := mul_comm _ _
    have hcl : lines ≤ ⌈T⌉ := by
      have : ((lines : Int) : ℚ) ≤ (⌈T⌉ : ℚ) := le_trans hTl hc1
      exact_mod_cast this
    omega


/-! ## The claims about the graph and the unit strings -/

/-- C7 as stated fails: with a scale maximum of 0 a positive sample divides to `+inf`, the
left side of the test is `-inf`, and every cell of that column is filled (here the middle
column of a 2 by 3 graph). -/
theorem printgraphw_zero_max_counterexample :
    printgraphw [0, 5, 0] (Dbl.ofInt 0) 2 3 = [(0, 1), (1, 1)] := by
  decide

/-- C7, amended: for every number of rows and columns and every history without a positive
sample, `printgraphw` called with scale maximum 0 fills no cell. -/
theorem printgraphw_zero_max (array : List Int) (lines cols : Int)
    (h : ∀ s ∈ array, s ≤ 0) : printgraphw array (Dbl.ofInt 0) lines cols = [] := by
  rw [List.eq_nil_iff_forall_not_mem]
  rintro ⟨y, x⟩ hmem
  obtain ⟨hy, _, hf⟩ := (mem_printgraphw array _ lines cols y x).mp hmem
  have hs : array.getD x 0 ≤ 0 := by
    rcases getD_mem_or_zero array x with hm | hz
    · exact h _ hm
    · rw [hz]
  rw [fillTest_zero_max _ lines y hs (by omega)] at hf
  exact Bool.false_ne_true hf

/-- C7 amended, for an idle history and for one with a negative sample. -/
theorem printgraphw_zero_max_witness :
    printgraphw [0, 0, 0] (Dbl.ofInt 0) 10 3 = [] ∧
      printgraphw [0, -40, 0] (Dbl.ofInt 0) 10 3 = [] :=
  ⟨printgraphw_zero_max [0, 0, 0] 10 3 (by decide),
    printgraphw_zero_max [0, -40, 0] 10 3 (by decide)⟩

/-- C8 as stated fails: with 25 rows and scale maximum 25 the sample 14 fills the 15 rows
10 to 24, one more than `min(rows, ceil(s * rows / scaleMax)) = 14`: `14 / 25.0 * 25` is
rounded to a double above 14, so `24 - 14.000000000000002 < 10` holds. -/
theorem printgraphw_rounding_counterexample :
    (printgraphw [14] (Dbl.ofInt 25) 25 1).map Prod.fst =
        [10, 11, 12, 13, 14, 15, 16, 17, 18, 19, 20, 21, 22, 23, 24] ∧
      columnCount (printgraphw [14] (Dbl.ofInt 25) 25 1) 0 = 15 ∧
      exactRows 25 25 14 = 14 ∧
      min (25 : Int) ⌈((14 : ℚ) * 25 / 25)⌉ = 14 := by
  refine ⟨by decide, by decide, ?_, ?_⟩
  · norm_num [exactRows]
  · norm_num

/-- The rounding also goes the other way: with 27 rows, scale maximum 5285231420772322683 and
the sample 4306484861370040705 the column has 22 filled rows, one fewer than
`min(rows, ceil(s * rows / scaleMax)) = 23`. -/
theorem printgraphw_rounding_below :
    columnCount (printgraphw [4306484861370040705] (Dbl.ofInt 5285231420772322683) 27 1) 0
        = 22 ∧
      exactRows 27 5285231420772322683 4306484861370040705 = 23 := by
  refine ⟨by decide, ?_⟩
  have h : ⌈((4306484861370040705 : Int) : ℚ) * ((27 : Int) : ℚ) /
      ((5285231420772322683 : Int) : ℚ)⌉ = 23 := by
    rw [Int.ceil_eq_iff]
    norm_num
  unfold exactRows
  rw [h]
  decide

/-- C8, amended: for `1 ≤ rows < 2^31`, a scale maximum `M` with `0 < M < 2^63` and a history
of samples in `0 .. 2^63 - 1`: a cell is filled exactly when the test
`lines - 1 - s / max * lines < y` holds in double arithmetic; the cells filled in a column
are a block at the bottom (every row below a filled row is filled) whose number of rows
differs from `min(rows, ceil(s * rows / M))` by at most one; a sample equal to `M` fills all
rows of its column, a sample of 0 none, and a column with a larger sample has every row
filled that a column with a smaller sample has. -/
theorem printgraphw_bottom_up (array : List Int) (M lines cols : Int)
    (hc : cols = array.length) (hl1 : 1 ≤ lines) (hl : lines < 2 ^ 31) (hM1 : 0 < M)
    (hM2 : M < 2 ^ 63) (hs : ∀ s ∈ array, 0 ≤ s ∧ s < 2 ^ 63) :
    (∀ x y : Nat, (y, x) ∈ printgraphw array (Dbl.ofInt M) lines cols ↔
        (y : Int) < lines ∧ (x : Int) < cols ∧
          fillTest (array.getD x 0) (Dbl.ofInt M) lines y = true) ∧
    (∀ x : Nat, x < array.length →
        exactRows lines M (array.getD x 0) - 1 ≤
            (columnCount (printgraphw array (Dbl.ofInt M) lines cols) x : Int) ∧
          (columnCount (printgraphw array (Dbl.ofInt M) lines cols) x : Int) ≤
            exactRows lines M (array.getD x 0) + 1) ∧
    (∀ x y y' : Nat, (y, x) ∈ printgraphw array (Dbl.ofInt M) lines cols → y ≤ y' →
        (y' : Int) < lines → (y', x) ∈ printgraphw array (Dbl.ofInt M) lines cols) ∧
    (∀ x y : Nat, array[x]? = some M → (y : Int) < lines →
        (y, x) ∈ printgraphw array (Dbl.ofInt M) lines cols) ∧
    (∀ x y : Nat, array[x]? = some 0 → (y, x) ∉ printgraphw array (Dbl.ofInt M) lines cols) ∧
    (∀ x x' y : Nat, x' < array.length → array.getD x 0 ≤ array.getD x' 0 →
        (y, x) ∈ printgraphw array (Dbl.ofInt M) lines cols →
        (y, x') ∈ printgraphw array (Dbl.ofInt M) lines cols) := by
  have hsamp : ∀ x, 0 ≤ array.getD x 0 ∧ array.getD x 0 < 2 ^ 63 := by
    intro x
    rcases getD_mem_or_zero array x with hm | hz
    · exact hs _ hm
    · rw [hz]; norm_num
  have key : ∀ x y : Nat, (y : Int) < lines →
      (fillTest (array.getD x 0) (Dbl.ofInt M) lines y = true ↔
        fillLevel lines M (array.getD x 0) < ((y : Int) : ℚ)) := by
    intro x y hy
    exact fillTest_iff lines M _ y (by omega) hl (by omega) hM2 (hsamp x).1 (hsamp x).2
      (by omega) (by omega)
  have getD_of (x : Nat) (v : Int) (hx : array[x]? = some v) :
      array.getD x 0 = v ∧ x < array.length := by
    obtain ⟨hlt, hv⟩ := List.getElem?_eq_some_iff.mp hx
    exact ⟨by rw [List.getD_eq_getElem _ _ hlt, hv], hlt⟩
  refine ⟨?_, ?_, ?_, ?_, ?_, ?_⟩
  · intro x y
    exact mem_printgraphw array _ lines cols y x
  · intro x hx
    exact columnCount_bounds array M lines cols x (by omega) hl1 hl hM1 hM2 (hsamp x).1
      (hsamp x).2
  · intro x y y' hmem hyy hy'
    obtain ⟨hy, hx, hf⟩ := (mem_printgraphw _ _ _ _ _ _).mp hmem
    refine (mem_printgraphw _ _ _ _ _ _).mpr ⟨hy', hx, ?_⟩
    rw [key x y hy] at hf
    rw [key x y' hy']
    have : ((y : Int) : ℚ) ≤ ((y' : Int) : ℚ) := by exact_mod_cast hyy
    linarith
  · intro x y hx hy
    obtain ⟨hv, hlt⟩ := getD_of x M hx
    refine (mem_printgraphw _ _ _ _ _ _).mpr ⟨hy, by omega, ?_⟩
    rw [key x y hy, hv, fillLevel_full lines M (by omega) hl (by omega)]
    have : (0 : ℚ) ≤ ((y : Int) : ℚ) := by exact_mod_cast Int.natCast_nonneg y
    linarith
  · intro x y hx hmem
    obtain ⟨hv, _⟩ := getD_of x 0 hx
    obtain ⟨hy, _, hf⟩ := (mem_printgraphw _ _ _ _ _ _).mp hmem
    rw [key x y hy, hv, fillLevel_empty lines M (by omega) hl] at hf
    have : ((y : Int) : ℚ) ≤ (lines : ℚ) - 1 := by
      have h1 : (y : Int) ≤ lines - 1 := by omega
      exact_mod_cast h1
    linarith
  · intro x x' y hx' hle hmem
    obtain ⟨hy, _, hf⟩ := (mem_printgraphw _ _ _ _ _ _).mp hmem
    refine (mem_printgraphw _ _ _ _ _ _).mpr ⟨hy, by omega, ?_⟩
    rw [key x y hy] at hf
    rw [key x' y hy]
    have := fillLevel_anti lines M _ _ (by omega) (by omega) hle
    linarith

/-- C8 amended, for 10 rows, scale maximum 100 and the history 100, 0, 50: the sample 100
fills all 10 rows of its column, the sample 0 none, and the sample 50 fills 5 rows, between
`exactRows - 1` and `exactRows + 1` with `exactRows = 5`. -/
theorem printgraphw_bottom_up_witness :
    (∀ y : Nat, (y : Int) < 10 → (y, 0) ∈ printgraphw [100, 0, 50] (Dbl.ofInt 100) 10 3) ∧
      (∀ y : Nat, (y, 1) ∉ printgraphw [100, 0, 50] (Dbl.ofInt 100) 10 3) ∧
      (exactRows 10 100 50 - 1 ≤
          (columnCount (printgraphw [100, 0, 50] (Dbl.ofInt 100) 10 3) 2 : Int) ∧
        (columnCount (printgraphw [100, 0, 50] (Dbl.ofInt 100) 10 3) 2 : Int) ≤
          exactRows 10 100 50 + 1) ∧
      columnCount (printgraphw [100, 0, 50] (Dbl.ofInt 100) 10 3) 2 = 5 :=
  ⟨fun y hy => (printgraphw_bottom_up [100, 0, 50] 100 10 3 (by decide) (by decide)
      (by decide) (by decide) (by decide) (by decide)).2.2.2.1 0 y (by decide) hy,
    fun y => (printgraphw_bottom_up [100, 0, 50] 100 10 3 (by decide) (by decide)
      (by decide) (by decide) (by decide) (by decide)).2.2.2.2.1 1 y (by decide),
    (printgraphw_bottom_up [100, 0, 50] 100 10 3 (by decide) (by decide)
      (by decide) (by decide) (by decide) (by decide)).2.1 2 (by decide),
    by decide⟩

/-- C9: for the `double` `2^90 = 1024^9` in binary units the loop of `bytestostr` divides
nine times and stops with `i = 9`, an index past the end of the 9-entry table `iec`; the same
happens in decimal units from `1000^9` on. Below that the function gives the strings of the
specification. -/
theorem bytestostr_table_overrun :
    scaleLoop (Dbl.ofInt 1024) 9 (Dbl.fin false (2 ^ 52) 38) 0 = (Dbl.ofInt 1, 9) ∧
      iec.length = 9 ∧ iec[9]? = none ∧
      bytestostr (Dbl.fin false (2 ^ 52) 38) false = none ∧
      bytestostr (Dbl.ofInt (2 * 10 ^ 27)) true = none ∧
      (Dbl.fin false (2 ^ 52) 38).val = 1024 ^ 9 ∧
      bytestostr (Dbl.ofInt 0) false = some "0 B" ∧
      bytestostr (Dbl.ofInt 1024) false = some "1.00 KiB" ∧
      bytestostr (Dbl.ofInt 1500) true = some "1.50 kB" ∧
      bytestostr (Dbl.ofInt 999) true = some "999 B" := by
  refine ⟨by decide, by decide, by decide, by decide, by decide, ?_, by decide, by decide,
    by decide, by decide⟩
  norm_num [Dbl.val, Dbl.sgn, fval]

end Nbwmon
